import Mathlib

/-!
Shallow embedding of the core text-replacement / field-synthesis engine of the
brev_kodning_automization repository, together with proofs about the claims of
its specification.

Python strings are modelled as `List Char`; Python `None` as `Option`;
the mutable run lists of `python-docx` paragraphs as pure `List` values that
the embedded operations rebuild.  Machine floats appearing in the similarity
gate are modelled as exact rationals.
-/

namespace Brev

/-! ## Generic text helpers (Python `str` operations used by the sources) -/

/-- Python whitespace predicate, restricted to the whitespace characters the
    embedded texts can contain (ASCII whitespace plus the U+2029 paragraph
    separator sentinel used by `process_runs.py`). -/
def pyIsSpace (c : Char) : Bool :=
  c = ' ' || c = '\t' || c = '\n' || c = '\r' || c = '\x0b' || c = '\x0c' || c = '\u2029'

/-- Python `str.strip()`: drop leading and trailing whitespace. -/
def pyStrip (l : List Char) : List Char :=
  ((l.dropWhile pyIsSpace).reverse.dropWhile pyIsSpace).reverse

/-- State machine for `re.sub(r"\s+", " ", ·)`: the flag records whether we
    are inside a whitespace run whose single replacement space has already
    been emitted. -/
def collapseGo : Bool → List Char → List Char
  | _, [] => []
  | inRun, c :: rest =>
    if pyIsSpace c then
      if inRun then collapseGo true rest else ' ' :: collapseGo true rest
    else c :: collapseGo false rest

/-- Python `re.sub(r"\s+", " ", ·)`: replace every maximal whitespace run by a
    single space. -/
def collapseWs (l : List Char) : List Char := collapseGo false l

/-- Python `str.lower()` applied characterwise. -/
def lowerL (l : List Char) : List Char := l.map Char.toLower

/-- Python `str.upper()` applied characterwise. -/
def upperL (l : List Char) : List Char := l.map Char.toUpper

/-- Word accumulator for Python `str.split()` (the accumulator holds the
    current word reversed). -/
def splitGo : List Char → List Char → List (List Char)
  | [], acc => if acc = [] then [] else [acc.reverse]
  | c :: rest, acc =>
    if pyIsSpace c then
      if acc = [] then splitGo rest [] else acc.reverse :: splitGo rest []
    else splitGo rest (c :: acc)

/-- Python `str.split()` with no argument: split on whitespace runs, dropping
    empty words. -/
def splitWs (l : List Char) : List (List Char) := splitGo l []

/-- Stable insertion into a sorted list (used to model Python's stable
    `sorted`/`list.sort`: on ties the inserted, originally earlier element
    stays in front). -/
def insertBy {α : Type _} (le : α → α → Bool) (a : α) : List α → List α
  | [] => [a]
  | b :: l => if le a b then a :: b :: l else b :: insertBy le a l

/-- Stable sort by a boolean comparison (insertion sort, which has exactly
    the stability behavior of Python's sorts). -/
def sortBy {α : Type _} (le : α → α → Bool) : List α → List α
  | [] => []
  | a :: l => insertBy le a (sortBy le l)

/-! ## `replace_field_text.py`: normalizer, locator, gate, overlap resolver -/

/-- The character class of the first quote-normalization regex in
    `_normalize_text_for_matching` (as written in the source it contains only
    the straight double quote, three times). -/
def dQuoteChars : List Char := ['"', '"', '"']

/-- The character class of the second quote-normalization regex (straight
    single quote, three times, as written in the source). -/
def sQuoteChars : List Char := ['\'', '\'', '\'']

/-- One step of `re.sub(r'[...]', '"', text)` for the double-quote class. -/
def normQuote1 (c : Char) : Char := if c ∈ dQuoteChars then '"' else c

/-- One step of the single-quote class substitution. -/
def normQuote2 (c : Char) : Char := if c ∈ sQuoteChars then '\'' else c

/-- `_normalize_text_for_matching`: quote canonicalization, then
    `re.sub(r"\s+", " ", text.strip())`. -/
def pyNormalize (l : List Char) : List Char :=
  collapseWs (pyStrip ((l.map normQuote1).map normQuote2))

/-- Does `needle` occur in `text` starting at index `i` (with the occurrence
    lying fully inside `text`)? -/
def matchAt (text needle : List Char) (i : Nat) : Bool :=
  decide (i + needle.length ≤ text.length) && ((text.drop i).take needle.length == needle)

/-- Python `str.find(needle, start)`: the least admissible index `≥ start`, or
    `none` (Python's `-1`).  Like Python, an empty needle matches at every
    index up to and including `text.length`, but never beyond. -/
def pyFind (text needle : List Char) (start : Nat) : Option Nat :=
  if h : start ≤ text.length then
    if matchAt text needle start then some start else pyFind text needle (start + 1)
  else none
termination_by text.length + 1 - start
decreasing_by omega

/-- Loop body of `_find_exact_matches`: repeatedly `find` from `pos + 1`,
    collecting `(pos, pos + len(needle))` spans.  The fuel argument only
    bounds the iteration count; `text.length + 1` iterations always suffice
    because each successful `find` advances the start index by at least one
    and `pyFind` fails for start indices beyond `text.length`. -/
def findExactGo (text needle : List Char) : Nat → Nat → List (Nat × Nat)
  | 0, _ => []
  | fuel + 1, start =>
    match pyFind text needle start with
    | none => []
    | some pos => (pos, pos + needle.length) :: findExactGo text needle fuel (pos + 1)

/-- `_find_exact_matches`. -/
def findExactMatches (text needle : List Char) : List (Nat × Nat) :=
  findExactGo text needle (text.length + 1) 0

/-- `_is_reasonable_match`, with the float arithmetic modelled exactly over
    the rationals. -/
def isReasonableMatch (foundText searchText : List Char) : Bool :=
  let lenRat : Rat :=
    if 0 < searchText.length then (foundText.length : Rat) / (searchText.length : Rat) else 0
  if lenRat < 4/5 || 6/5 < lenRat then false
  else
    let searchWords := splitWs (lowerL searchText)
    let foundWords := splitWs (lowerL foundText)
    let commonWords := (searchWords.filter (fun w => foundWords.contains w)).length
    let wordRat : Rat :=
      if 0 < searchWords.length then (commonWords : Rat) / (searchWords.length : Rat) else 0
    decide (7/10 ≤ wordRat)

/-- The `orig_to_norm` table of `_map_normalized_to_original_position`: for
    each original position, the normalized position it maps to, with a final
    sentinel entry and one extra entry per whitespace run (mirroring the
    double append performed by the source loop at the head of each run). -/
def origToNorm : List Char → Nat → List Nat
  | [], normPos => [normPos]
  | c :: rest, normPos =>
    if c = '"' ∨ c = '\'' then normPos :: origToNorm rest (normPos + 1)
    else if pyIsSpace c then
      normPos :: normPos :: ((rest.takeWhile pyIsSpace).map fun _ => normPos) ++
        origToNorm (rest.dropWhile pyIsSpace) (normPos + 1)
    else normPos :: origToNorm rest (normPos + 1)
termination_by l => l.length
decreasing_by
  · simp
  · exact Nat.lt_succ_of_le (List.dropWhile_sublist pyIsSpace).length_le
  · simp

/-- `_map_normalized_to_original_position`. -/
def mapNormToOrig (orig norm : List Char) (normPos : Nat) : Nat :=
  if normPos = 0 then 0
  else if norm.length ≤ normPos then orig.length
  else
    match (origToNorm orig 0).findIdx? (fun m => normPos ≤ m) with
    | some i => i
    | none => orig.length

/-- Loop body of the fuzzy (normalized, case-insensitive) search in
    `_find_text_occurrences`.  The fuel bounds the iteration count;
    `textClean.length + 1` iterations always suffice because the loop is only
    entered with a nonempty normalized needle, so the start index strictly
    increases and `pyFind` fails beyond the haystack length. -/
def fuzzyGo (text textClean searchClean searchText : List Char) :
    Nat → Nat → List (Nat × Nat)
  | 0, _ => []
  | fuel + 1, start =>
    match pyFind (lowerL textClean) (lowerL searchClean) start with
    | none => []
    | some pos =>
      let origStart := mapNormToOrig text textClean pos
      let origEnd := mapNormToOrig text textClean (pos + searchClean.length)
      let rest := fuzzyGo text textClean searchClean searchText fuel
        (pos + searchClean.length)
      if origEnd ≤ text.length then
        let actualText := (text.drop origStart).take (origEnd - origStart)
        if isReasonableMatch actualText searchText then
          (origStart, origEnd) :: rest
        else rest
      else rest

/-- `_find_text_occurrences`: exact matching first; only when there is no
    exact occurrence, normalized case-insensitive search validated by the
    similarity gate. -/
def findTextOccurrences (text searchText : List Char) : List (Nat × Nat) :=
  let exactMatches := findExactMatches text searchText
  if exactMatches ≠ [] then exactMatches
  else
    let searchClean := pyNormalize searchText
    let textClean := pyNormalize text
    if searchClean = [] then []
    else fuzzyGo text textClean searchClean searchText (textClean.length + 1) 0

/-- `ReplacementMatch` from `replace_field_text.py`. -/
structure ReplacementMatch where
  originalText : List Char
  replacementText : List Char
  startPos : Nat
  endPos : Nat
  deriving DecidableEq, Repr

/-- `_find_all_matches`: all occurrence spans of every replacement pair. -/
def findAllMatches (paragraphText : List Char)
    (jsonData : List (List Char × List Char)) : List ReplacementMatch :=
  jsonData.flatMap fun pair =>
    if pair.1 = [] then []
    else
      (findTextOccurrences paragraphText pair.1).map fun span =>
        ⟨pair.1, pair.2, span.1, span.2⟩

/-- The half-open interval overlap test of `_remove_overlapping_matches`. -/
def rmOverlaps (m accepted : ReplacementMatch) : Bool :=
  decide (m.startPos < accepted.endPos) && decide (m.endPos > accepted.startPos)

/-- Greedy acceptance loop of `_remove_overlapping_matches` (the accepted
    list grows at its tail, as in the source). -/
def selectNonOverlapping (acc : List ReplacementMatch) :
    List ReplacementMatch → List ReplacementMatch
  | [] => acc
  | m :: rest =>
    if acc.any (fun accepted => rmOverlaps m accepted) then
      selectNonOverlapping acc rest
    else
      selectNonOverlapping (acc ++ [m]) rest

/-- `_remove_overlapping_matches`: sort ascending by start (stably, like
    Python's `sorted`), then greedily accept non-overlapping spans. -/
def removeOverlappingMatches (ms : List ReplacementMatch) :
    List ReplacementMatch :=
  if ms = [] then ms
  else
    selectNonOverlapping [] (sortBy (fun a b => decide (a.startPos ≤ b.startPos)) ms)

/-- The descending re-sort performed by `_process_paragraph` before applying
    the accepted matches (`sort(key=..., reverse=True)`, which is stable). -/
def orderForApplication (ms : List ReplacementMatch) : List ReplacementMatch :=
  sortBy (fun a b => decide (b.startPos ≤ a.startPos)) ms

/-! ## `replace_field_text.py`: run styles and the style-preserving rewriter -/

/-- The style dictionary built by `_extract_run_style`. -/
structure RStyle where
  fontName : Option (List Char) := none
  fontSize : Option Nat := none
  bold : Option Bool := none
  italic : Option Bool := none
  underline : Option Bool := none
  color : Option (List Char) := none
  highlight : Option (List Char) := none
  deriving DecidableEq, Repr

/-- A paragraph run: text plus its style attributes. -/
structure Run where
  text : List Char
  style : RStyle
  deriving DecidableEq, Repr

/-- `_get_paragraph_text`: concatenation of all run texts. -/
def getParagraphText (runs : List Run) : List Char :=
  runs.flatMap Run.text

/-- `_apply_run_style` applied to a freshly added run (all attributes unset):
    each attribute is copied under the source's guard (`is not None` for the
    booleans, truthiness for the strings and the size). -/
def applyRunStyleNew (style : RStyle) : RStyle where
  fontName := style.fontName.filter (fun n => n ≠ [])
  fontSize := style.fontSize.filter (fun s => s ≠ 0)
  bold := style.bold
  italic := style.italic
  underline := style.underline
  color := style.color.filter (fun c => c ≠ [])
  highlight := style.highlight.filter (fun h => h ≠ [])

/-- Scanning loop of `_get_style_at_position`. -/
def getStyleScan (runs : List Run) (currentPos position : Nat) : Option RStyle :=
  match runs with
  | [] => none
  | run :: rest =>
    if currentPos ≤ position ∧ position < currentPos + run.text.length then
      some run.style
    else getStyleScan rest (currentPos + run.text.length) position

/-- `_get_style_at_position`: style of the run whose cumulative range contains
    `position`, else the last run's style, else the empty style. -/
def getStyleAtPosition (runs : List Run) (position : Nat) : RStyle :=
  match runs with
  | [] => {}
  | _ =>
    match getStyleScan runs 0 position with
    | some s => s
    | none => (runs.getLast?.map Run.style).getD {}

/-- The per-run record (`text`, `style`, `start`, `end`) collected by
    `_replace_paragraph_text` before it clears the paragraph. -/
structure OrigRunInfo where
  text : List Char
  style : RStyle
  startPos : Nat
  endPos : Nat
  deriving DecidableEq, Repr

/-- Cumulative collection of the original run information. -/
def buildOriginalRuns (runs : List Run) (currentPos : Nat) : List OrigRunInfo :=
  match runs with
  | [] => []
  | run :: rest =>
    ⟨run.text, run.style, currentPos, currentPos + run.text.length⟩ ::
      buildOriginalRuns rest (currentPos + run.text.length)

/-- `_find_style_for_original_position`. -/
def findStyleForOriginalPosition (originalRuns : List OrigRunInfo)
    (position : Nat) : RStyle :=
  match originalRuns.find? (fun info =>
      decide (info.startPos ≤ position) && decide (position < info.endPos)) with
  | some info => info.style
  | none => ((originalRuns.getLast?).map OrigRunInfo.style).getD {}

/-- `_replace_paragraph_text`: clear the paragraph and rebuild it as at most
    three runs (before / replacement / after), styling each added run with
    `_apply_run_style` on a fresh run. -/
def replaceParagraphText (runs : List Run) (newText : List Char)
    (replacementStyle : RStyle) (replacementStart replacementLength : Nat) :
    List Run :=
  let originalRuns := buildOriginalRuns runs 0
  if newText = [] then []
  else
    let replacementEnd := replacementStart + replacementLength
    let beforeRuns :=
      if 0 < replacementStart then
        let beforeText := newText.take replacementStart
        let beforeStyle := findStyleForOriginalPosition originalRuns 0
        if beforeText ≠ [] then [Run.mk beforeText (applyRunStyleNew beforeStyle)] else []
      else []
    let replRuns :=
      if 0 < replacementLength then
        let replacementText := (newText.drop replacementStart).take replacementLength
        if replacementText ≠ [] then
          [Run.mk replacementText (applyRunStyleNew replacementStyle)] else []
      else []
    let afterRuns :=
      if replacementEnd < newText.length then
        let afterText := newText.drop replacementEnd
        let afterStyle := findStyleForOriginalPosition originalRuns replacementStart
        if afterText ≠ [] then [Run.mk afterText (applyRunStyleNew afterStyle)] else []
      else []
    beforeRuns ++ replRuns ++ afterRuns

/-! ## `process_runs.py`: cross-paragraph text index and run surgery -/

/-- `PARA_SEP`, the paragraph separator sentinel (U+2029). -/
def paraSep : Char := '\u2029'

/-- One entry of the per-character `index` built by `_build_text_index`.
    A run cell records the run's index inside its paragraph together with the
    character's offset inside that run; a separator cell records only the
    paragraph index (its `run` field is `None` in the source).  Run identity
    (`current['run'] is not r` in the source) is modelled by the pair
    `(pIdx, run index)`, which uniquely identifies a run of the document. -/
structure Cell where
  pIdx : Nat
  run : Option (Nat × Nat)
  ch : Char
  deriving DecidableEq, Repr

/-- A document for the cross-paragraph engine: paragraphs, each a list of run
    texts. -/
abbrev PDoc := List (List (List Char))

/-- The cells of one run: every character tagged with its offset, mirroring
    `for i, ch in enumerate(t)`. -/
def runCells (p r : Nat) : List Char → Nat → List Cell
  | [], _ => []
  | ch :: rest, i => ⟨p, some (r, i), ch⟩ :: runCells p r rest (i + 1)

/-- The cells contributed by one paragraph: every character of every run, in
    order, tagged with `(run index, offset in run)`, mirroring
    `for r_idx, run in enumerate(p.runs)`. -/
def paraCells (p : Nat) : List (List Char) → Nat → List Cell
  | [], _ => []
  | t :: rest, r => runCells p r t 0 ++ paraCells p rest (r + 1)

/-- The full cell list of `_build_text_index`: paragraph cells with exactly
    one separator cell between consecutive paragraphs and none after the
    last. -/
def buildCells (p : Nat) : PDoc → List Cell
  | [] => []
  | [para] => paraCells p para 0
  | para :: rest => paraCells p para 0 ++ (⟨p, none, paraSep⟩ :: buildCells (p + 1) rest)

/-- The flattened text returned by `_build_text_index`. -/
def flatText (doc : PDoc) : List Char :=
  (buildCells 0 doc).map Cell.ch

/-- A run span produced by `_collect_affected_run_spans`. -/
structure RunSpan where
  pIdx : Nat
  rIdx : Nat
  startOff : Nat
  endOff : Nat
  deriving DecidableEq, Repr

/-- The walking loop of `_collect_affected_run_spans`, over the cell slice of
    the match, carrying the currently open span. -/
def collectGo : List Cell → Option RunSpan → List RunSpan
  | [], none => []
  | [], some cur => [cur]
  | cell :: rest, cur =>
    match cell.run with
    | none =>
      match cur with
      | some s => s :: collectGo rest none
      | none => collectGo rest none
    | some (r, off) =>
      match cur with
      | none => collectGo rest (some ⟨cell.pIdx, r, off, off + 1⟩)
      | some s =>
        if s.pIdx = cell.pIdx ∧ s.rIdx = r then
          collectGo rest (some { s with endOff := off + 1 })
        else
          s :: collectGo rest (some ⟨cell.pIdx, r, off, off + 1⟩)

/-- Lexicographic key order used by the final
    `spans.sort(key=lambda s: (s['p_idx'], s['r_idx']))`. -/
def spanLe (a b : RunSpan) : Bool :=
  decide (a.pIdx < b.pIdx) || (decide (a.pIdx = b.pIdx) && decide (a.rIdx ≤ b.rIdx))

/-- `_collect_affected_run_spans` for a match `[start, stop)` of the flat
    text: walk the cell slice, then sort by `(pIdx, rIdx)` (stably, like
    Python's `list.sort`). -/
def collectAffectedRunSpans (index : List Cell) (start stop : Nat) : List RunSpan :=
  sortBy spanLe (collectGo ((index.drop start).take (stop - start)) none)

/-- The highlight value `WD_COLOR.GREEN` assigned by `_replace_in_runs`. -/
def wdGreen : List Char := ['G', 'R', 'E', 'E', 'N']

/-- A span of `_replace_in_runs`, carrying the (pure) run it refers to. -/
structure SpanRun where
  run : Run
  pIdx : Nat
  rIdx : Nat
  startOff : Nat
  endOff : Nat
  deriving DecidableEq, Repr

/-- `_replace_in_runs`, as a pure function from the affected spans to the new
    contents of their runs (`none` = the run is removed from its paragraph).
    The first span's run receives the replacement inside its covered slice and
    is highlighted green; every later run is removed when fully covered and
    otherwise has exactly its covered slice cut out. -/
def replaceInRuns (spans : List SpanRun) (replacementText : List Char) :
    List (Option Run) :=
  match spans with
  | [] => []
  | first :: restSpans =>
    let fText := first.run.text
    let firstLeft := fText.take first.startOff
    let firstRight := fText.drop first.endOff
    let newFirst : Run :=
      ⟨firstLeft ++ replacementText ++ firstRight,
        { first.run.style with highlight := some wdGreen }⟩
    some newFirst :: restSpans.map fun s =>
      let t := s.run.text
      if s.startOff = 0 ∧ s.endOff = t.length then none
      else some ⟨t.take s.startOff ++ t.drop s.endOff, s.run.style⟩

/-! ## `find_fields.py`: color-aware title lookup -/

/-- A mapping table: ordered `(title, key)` pairs (a Python dict preserves
    insertion order; titles are unique). -/
abbrev Mappings := List (List Char × List Char)

/-- `sorted(mappings.keys(), key=len, reverse=True)`, kept paired with the
    values (the source looks each title back up in the dict, which for unique
    titles is the same thing). -/
def sortPairsByTitleLen (m : Mappings) : Mappings :=
  sortBy (fun a b => decide (b.1.length ≤ a.1.length)) m

/-- `find_title_match_with_mf_prefix`: exact (trimmed, case-insensitive)
    title equality first; if that fails and `allowMf` is set, accept a title
    that starts with the literal `"MF - "` whose suffix equals the trimmed
    segment text case-insensitively. -/
def findTitleMatchMf (segmentText : List Char) (m : Mappings) (allowMf : Bool) :
    Option (List Char × List Char) :=
  let sortedPairs := sortPairsByTitleLen m
  let clean := pyStrip segmentText
  match sortedPairs.find? (fun p => lowerL clean == lowerL p.1) with
  | some p => some (p.1, p.2)
  | none =>
    if allowMf then
      match sortedPairs.find? (fun p =>
          ((lowerL p.1).take 5 == ("mf - ").toList) &&
            (lowerL clean == lowerL (p.1.drop 5))) with
      | some p => some (p.1, p.2)
      | none => none
    else none

/-- The highlighted-segment branch of
    `replace_titles_with_mergefields_respecting_colors` (lines 193–218):
    MF-prefix matching is allowed exactly for highlight color `"00FF00"`, and
    any match found for such a green segment gets its key prefixed with
    `"TextInput:"`. -/
def highlightSegMatch (segmentText : List Char) (highlightColor : List Char)
    (m : Mappings) : Option (List Char × List Char) :=
  let clean := pyStrip segmentText
  let allowMf := upperL highlightColor == ("00FF00").toList
  match findTitleMatchMf clean m allowMf with
  | some (title, key) =>
    some (title, if allowMf then ("TextInput:").toList ++ key else key)
  | none => none

/-! ## `app.py` field synthesis and
    `extract_fields_from_documents.py` field extraction -/

/-- A field-level XML element: a field character (`begin`/`separate`/`end`),
    an instruction-text element, or a plain text element. -/
inductive FElem where
  | fchBegin : FElem
  | fchSep : FElem
  | fchEnd : FElem
  | instr : List Char → FElem
  | wt : List Char → FElem
  deriving DecidableEq, Repr

/-- `create_merge_field`: begin, `" MERGEFIELD <key> "`, end. -/
def createMergeField (key : List Char) : List FElem :=
  [FElem.fchBegin,
   FElem.instr ((" MERGEFIELD ").toList ++ key ++ [' ']),
   FElem.fchEnd]

/-- `create_if_field`: begin, `' IF "J" = "'`, nested MERGEFIELD for the
    condition, `'" "'`, nested MERGEFIELD for the true branch, `'"'`, end. -/
def createIfField (conditionKey trueResultKey : List Char) : List FElem :=
  [FElem.fchBegin, FElem.instr ((" IF \"J\" = \"").toList)] ++
    createMergeField conditionKey ++
    [FElem.instr (("\" \"").toList)] ++
    createMergeField trueResultKey ++
    [FElem.instr ['"'], FElem.fchEnd]

/-- Loop of `re.sub(r"«[^»]*»", "", ·)`: drop every guillemet-delimited field
    result; an opening guillemet with no closing one is kept, as in the
    regex.  The fuel only bounds the iteration count (each step consumes at
    least one character, so `length + 1` suffices); on exhaustion the rest of
    the input is returned unchanged. -/
def removeGuillGo : Nat → List Char → List Char
  | 0, l => l
  | _ + 1, [] => []
  | fuel + 1, c :: rest =>
    if c = '«' then
      match rest.findIdx? (fun d => d = '»') with
      | some k => removeGuillGo fuel (rest.drop (k + 1))
      | none => c :: removeGuillGo fuel rest
    else c :: removeGuillGo fuel rest

/-- `re.sub(r"«[^»]*»", "", ·)`. -/
def removeGuill (l : List Char) : List Char := removeGuillGo (l.length + 1) l

/-- `_clean_field_code`: remove `«...»` results, collapse whitespace runs,
    strip. -/
def cleanFieldCode (fieldCode : List Char) : List Char :=
  pyStrip (collapseWs (removeGuill fieldCode))

/-- Brace scanner of `_find_nested_fields_improved`, looking for the matching
    closing brace of the brace opened just before position `j` with
    `braceCount` braces currently open.  Returns the position one past the
    matching brace, if any. -/
def braceScan (code : List Char) (braceCount : Nat) (j : Nat) (fuel : Nat) :
    Option Nat :=
  match fuel with
  | 0 => if braceCount = 0 then some j else none
  | fuel + 1 =>
    if braceCount = 0 then some j
    else
      match code.get? j with
      | none => none
      | some c =>
        braceScan code
          (if c = '{' then braceCount + 1 else if c = '}' then braceCount - 1 else braceCount)
          (j + 1) fuel

/-- `_find_nested_fields_improved`. -/
def findNestedImproved (code : List Char) (i : Nat) (fuel : Nat) :
    List (List Char) :=
  match fuel with
  | 0 => []
  | fuel + 1 =>
    match code.get? i with
    | none => []
    | some c =>
      if c = '{' then
        match braceScan code 1 (i + 1) (code.length + 1) with
        | some j =>
          let nested := pyStrip ((code.drop i).take (j - i))
          let rest := findNestedImproved code j fuel
          if 2 < nested.length then
            let innerContent := pyStrip ((nested.drop 1).take (nested.length - 2))
            if innerContent ≠ [] then
              let cleanedInner := cleanFieldCode innerContent
              if cleanedInner ≠ [] then (('{' :: ' ' :: cleanedInner) ++ [' ', '}']) :: rest
              else rest
            else rest
          else rest
        | none => findNestedImproved code (i + 1) fuel
      else findNestedImproved code (i + 1) fuel

/-- One extracted field of `_process_runs_for_fields`. -/
structure FieldInfo where
  ftype : List Char
  code : List Char
  result : List Char
  nested : List (List Char)
  fullText : List Char
  deriving DecidableEq, Repr

/-- Build the `field_info` dict appended at the end of a top-level field. -/
def mkFieldInfo (fieldCode fieldResult : List Char) : FieldInfo :=
  let cleanedCode := cleanFieldCode fieldCode
  { ftype :=
      if cleanedCode = [] then ['u', 'n', 'k', 'n', 'o', 'w', 'n']
      else upperL ((cleanedCode.dropWhile pyIsSpace).takeWhile (fun d => !pyIsSpace d))
    code := cleanedCode
    result := fieldResult
    nested := findNestedImproved cleanedCode 0 (cleanedCode.length + 1)
    fullText := ('{' :: ' ' :: cleanedCode) ++ [' ', '}'] }

/-- Reader state of `_process_runs_for_fields`.  The nesting level is an
    integer, as in Python (it can only go negative on unbalanced input). -/
structure RState where
  level : Int := 0
  code : List (List Char) := []
  resultParts : List (List Char) := []
  inCode : Bool := false
  inResult : Bool := false
  fields : List FieldInfo := []
  deriving Repr

/-- Processing of one `fldChar` element. -/
def stepFld (s : RState) : FElem → RState
  | FElem.fchBegin =>
    if s.level + 1 = 1 then
      { s with level := s.level + 1, code := [], resultParts := [],
               inCode := true, inResult := false }
    else
      { s with level := s.level + 1,
               code := if s.inCode then s.code ++ [['{']] else s.code }
  | FElem.fchSep =>
    if s.level = 1 then { s with inCode := false, inResult := true } else s
  | FElem.fchEnd =>
    if s.level = 1 then
      let fieldCode := pyStrip s.code.flatten
      let fieldResult := pyStrip s.resultParts.flatten
      { s with level := s.level - 1,
               inCode := false, inResult := false,
               fields :=
                 if fieldCode ≠ [] then s.fields ++ [mkFieldInfo fieldCode fieldResult]
                 else s.fields }
    else
      { s with level := s.level - 1,
               code := if s.inCode then s.code ++ [['}']] else s.code }
  | _ => s

/-- Is this element a `fldChar`? -/
def isFld : FElem → Bool
  | FElem.fchBegin => true
  | FElem.fchSep => true
  | FElem.fchEnd => true
  | _ => false

/-- The instruction text carried by an element, if any. -/
def instrOf : FElem → Option (List Char)
  | FElem.instr s => some s
  | _ => none

/-- The plain text carried by an element, if any. -/
def wtOf : FElem → Option (List Char)
  | FElem.wt s => some s
  | _ => none

/-- Processing of one run by `_process_runs_for_fields`: all of the run's
    field characters first, then (state permitting) its instruction texts,
    then its plain texts. -/
def stepRun (s : RState) (run : List FElem) : RState :=
  let s1 := (run.filter isFld).foldl stepFld s
  let s2 :=
    if s1.inCode then { s1 with code := s1.code ++ run.filterMap instrOf } else s1
  if s2.inCode then { s2 with code := s2.code ++ run.filterMap wtOf }
  else if s2.inResult then
    { s2 with resultParts := s2.resultParts ++ run.filterMap wtOf }
  else s2

/-- `_process_runs_for_fields` over a run sequence. -/
def processRunsForFields (runs : List (List FElem)) : List FieldInfo :=
  (runs.foldl stepRun {}).fields

/-- A primitive sequence laid out with one element per run, which is how a
    reader consumes the synthesized field primitives in order. -/
def singletonRuns (elems : List FElem) : List (List FElem) :=
  elems.map fun e => [e]

/-! ## `find_change_sentences.py`: regex finder with cross-pattern dedup -/

/-- One regex match, as delivered by the `re` collaborator: the full matched
    text and the optional capture groups. -/
structure ReMatch where
  fullText : List Char
  groups : List (Option (List Char))
  deriving DecidableEq, Repr

/-- One compiled pattern together with the matches `finditer` yields for it
    on the document text (the regex engine is an external collaborator; its
    match enumeration is taken as input). -/
structure RePat where
  pstr : List Char
  ms : List ReMatch
  deriving DecidableEq, Repr

/-- One reported match in the results dictionary. -/
structure ReportEntry where
  fullText : List Char
  groups : List (List Char)
  deriving DecidableEq, Repr

/-- The results dictionary, insertion-ordered like a Python dict. -/
abbrev ReResults := List (List Char × List ReportEntry)

/-- `results[k] = v` on an insertion-ordered dictionary: overwrite in place
    if the key exists, else append. -/
def dictSet (d : ReResults) (k : List Char) (v : List ReportEntry) : ReResults :=
  match d with
  | [] => [(k, v)]
  | (k', v') :: rest =>
    if k' = k then (k, v) :: rest else (k', v') :: dictSet rest k v

/-- `results[k]` (defaulting to the empty list, which never happens in the
    source because the key is always set first). -/
def dictGet (d : ReResults) (k : List Char) : List ReportEntry :=
  match d.find? (fun p => p.1 = k) with
  | some p => p.2
  | none => []

/-- Inner loop of `find_patterns` over one pattern's matches, threading the
    cross-pattern `seen_full_texts` set. -/
def findPatternsInner (pstr : List Char) (msList : List ReMatch)
    (results : ReResults) (seen : List (List Char)) :
    ReResults × List (List Char) :=
  match msList with
  | [] => (results, seen)
  | m :: rest =>
    if m.fullText ∈ seen then findPatternsInner pstr rest results seen
    else
      let entry : ReportEntry := ⟨m.fullText, m.groups.filterMap id⟩
      findPatternsInner pstr rest
        (dictSet results pstr (dictGet results pstr ++ [entry]))
        (seen ++ [m.fullText])

/-- Outer loop of `DocumentRegexFinder.find_patterns`. -/
def findPatternsGo (pats : List RePat) (results : ReResults)
    (seen : List (List Char)) : ReResults :=
  match pats with
  | [] => results
  | pat :: rest =>
    let state := findPatternsInner pat.pstr pat.ms (dictSet results pat.pstr []) seen
    findPatternsGo rest state.1 state.2

/-- `DocumentRegexFinder.find_patterns` (the document text only enters
    through each pattern's match list, supplied by the regex collaborator). -/
def findPatterns (pats : List RePat) : ReResults :=
  findPatternsGo pats [] []

/-! ## Claim-side definitions (statements of the spec's claims) -/

/-- All spans at which `needle` occurs verbatim in `text` (the spec's "spans
    of all exact occurrences"). -/
def occSpans (text needle : List Char) : List (Nat × Nat) :=
  ((List.range (text.length + 1)).filter (fun i => matchAt text needle i)).map
    fun i => (i, i + needle.length)

/-- Non-overlap of two replacement matches, as the spec states it. -/
def rmSeparate (a b : ReplacementMatch) : Prop :=
  a.endPos ≤ b.startPos ∨ b.endPos ≤ a.startPos

/-- The run position (paragraph, run, offset) of a cell, when it is a run
    cell (and `none` for the sentinel cells). -/
def cellOrigin (c : Cell) : Option (Nat × Nat × Nat) :=
  c.run.map fun r => (c.pIdx, r.1, r.2)

/-- The run positions covered by one collected run span. -/
def spanCells (s : RunSpan) : List (Nat × Nat × Nat) :=
  (List.range' s.startOff (s.endOff - s.startOff)).map fun o => (s.pIdx, s.rIdx, o)

/-- The run positions of the non-sentinel cells in the slice `[start, stop)`
    of a cell index. -/
def coveredCells (index : List Cell) (start stop : Nat) : List (Nat × Nat × Nat) :=
  ((index.drop start).take (stop - start)).filterMap cellOrigin

/-- Offset contiguity between adjacent cells of a text index: whenever two
    adjacent cells belong to the same run, their offsets are consecutive. -/
def cellStep (c1 c2 : Cell) : Prop :=
  ∀ r o, c1.run = some (r, o) → ∀ r' o', c2.run = some (r', o') →
    c1.pIdx = c2.pIdx → r = r' → o' = o + 1

/-- The reconstructed full text the C4 claim expects from the field reader. -/
def claimedIfFullText (condKey trueKey : List Char) : List Char :=
  ("\x7b IF \"J\" = \"\x7b MERGEFIELD ").toList ++ condKey ++
    (" \x7d\" \"\x7b MERGEFIELD ").toList ++ trueKey ++ (" \x7d\" \x7d").toList

/-- All the reported full texts of a `find_patterns` result dictionary. -/
def allReportedTexts (results : ReResults) : List (List Char) :=
  results.flatMap fun p => p.2.map ReportEntry.fullText

/-- The literal segment of the IF-field instruction code before the
    condition key (the stripped concatenation starts at `IF`). -/
def mfLitA : List Char :=
  ['I', 'F', ' ', '"', 'J', '"', ' ', '=', ' ', '"', '{', ' ',
   'M', 'E', 'R', 'G', 'E', 'F', 'I', 'E', 'L', 'D', ' ']

/-- The literal segment of the IF-field instruction code between the two
    keys. -/
def mfLitB : List Char :=
  [' ', '}', '"', ' ', '"', '{', ' ',
   'M', 'E', 'R', 'G', 'E', 'F', 'I', 'E', 'L', 'D', ' ']

/-- The literal segment of the IF-field instruction code after the true-branch
    key. -/
def mfLitT : List Char := [' ', '}', '"']

/-- The stripped concatenated instruction text accumulated by the field
    reader on a synthesized IF field. -/
def ifFieldCode (condKey trueKey : List Char) : List Char :=
  mfLitA ++ condKey ++ mfLitB ++ trueKey ++ mfLitT

/-- Boolean check that a character list has no two adjacent whitespace
    characters. -/
def noWsPair : List Char → Bool
  | [] => true
  | [_] => true
  | a :: b :: rest => (!pyIsSpace a || !pyIsSpace b) && noWsPair (b :: rest)

/-! # Theorems -/

/-! ## General lemmas about the stable sort -/

theorem insertBy_perm {α : Type _} (le : α → α → Bool) (a : α) :
    ∀ l : List α, (insertBy le a l).Perm (a :: l) := by
  intro l
  induction l with
  | nil => exact List.Perm.refl _
  | cons b t ih =>
    unfold insertBy
    by_cases h : le a b = true
    · rw [if_pos h]
    · rw [if_neg h]
      exact (ih.cons b).trans (List.Perm.swap a b t)

theorem mem_insertBy {α : Type _} (le : α → α → Bool) (a c : α) (l : List α) :
    c ∈ insertBy le a l ↔ c = a ∨ c ∈ l := by
  rw [(insertBy_perm le a l).mem_iff, List.mem_cons]

theorem sortBy_perm {α : Type _} (le : α → α → Bool) :
    ∀ l : List α, (sortBy le l).Perm l := by
  intro l
  induction l with
  | nil => exact List.Perm.refl _
  | cons a t ih =>
    unfold sortBy
    exact (insertBy_perm le a _).trans (ih.cons a)

theorem insertBy_pairwise {α : Type _} (le : α → α → Bool)
    (htrans : ∀ a b c, le a b = true → le b c = true → le a c = true)
    (htot : ∀ a b, le a b = true ∨ le b a = true) (a : α) :
    ∀ l, l.Pairwise (fun x y => le x y = true) →
      (insertBy le a l).Pairwise (fun x y => le x y = true) := by
  intro l
  induction l with
  | nil => intro _; exact List.pairwise_singleton _ _
  | cons b t ih =>
    intro h
    rw [List.pairwise_cons] at h
    unfold insertBy
    by_cases hab : le a b = true
    · rw [if_pos hab, List.pairwise_cons]
      constructor
      · intro y hy
        rw [List.mem_cons] at hy
        rcases hy with rfl | hy
        · exact hab
        · exact htrans a b y hab (h.1 y hy)
      · rw [List.pairwise_cons]
        exact h
    · rw [if_neg hab, List.pairwise_cons]
      constructor
      · intro y hy
        rw [mem_insertBy] at hy
        rcases hy with rfl | hy
        · rcases htot y b with h' | h'
          · exact absurd h' hab
          · exact h'
        · exact h.1 y hy
      · exact ih h.2

theorem sortBy_pairwise {α : Type _} (le : α → α → Bool)
    (htrans : ∀ a b c, le a b = true → le b c = true → le a c = true)
    (htot : ∀ a b, le a b = true ∨ le b a = true) :
    ∀ l : List α, (sortBy le l).Pairwise (fun x y => le x y = true) := by
  intro l
  induction l with
  | nil => exact List.Pairwise.nil
  | cons a t ih =>
    unfold sortBy
    exact insertBy_pairwise le htrans htot a _ ih

/-! ## General lemmas about the whitespace helpers -/

theorem head_dropWhile_not (p : Char → Bool) (l : List Char) :
    ∀ c ∈ (l.dropWhile p).head?, p c = false := by
  intro c hc
  have h := List.head?_dropWhile_not p l
  cases hh : (l.dropWhile p).head? with
  | none => rw [hh] at hc; simp at hc
  | some d =>
    rw [hh] at h hc
    simp only [Option.mem_def, Option.some.injEq] at hc
    subst hc
    exact h

theorem dropWhile_eq_self_of_head (p : Char → Bool) (l : List Char)
    (h : ∀ c ∈ l.head?, p c = false) : l.dropWhile p = l := by
  cases l with
  | nil => rfl
  | cons a t =>
    have ha : p a = false := h a (by simp)
    simp [List.dropWhile_cons, ha]

theorem getLast?_mem' {α : Type _} {l : List α} {a : α}
    (h : l.getLast? = some a) : a ∈ l := by
  induction l with
  | nil => simp at h
  | cons b t ih =>
    cases t with
    | nil => simp at h; simp [h]
    | cons c u =>
      rw [List.getLast?_cons_cons] at h
      exact List.mem_cons_of_mem _ (ih h)

theorem getLast?_dropWhile (p : Char → Bool) (l : List Char)
    (h : l.dropWhile p ≠ []) : (l.dropWhile p).getLast? = l.getLast? := by
  induction l with
  | nil => simp at h
  | cons a t ih =>
    rw [List.dropWhile_cons]
    by_cases hp : p a = true
    · rw [List.dropWhile_cons, if_pos hp] at h
      rw [if_pos hp, ih h]
      cases t with
      | nil => simp at h
      | cons c u => rw [List.getLast?_cons_cons]
    · rw [if_neg hp]

theorem collapseGo_cons (b : Bool) (c : Char) (rest : List Char) :
    collapseGo b (c :: rest) =
      if pyIsSpace c then
        if b then collapseGo true rest else ' ' :: collapseGo true rest
      else c :: collapseGo false rest := rfl

theorem collapseGo_true (rest : List Char) :
    collapseGo true rest = collapseWs (rest.dropWhile pyIsSpace) := by
  induction rest with
  | nil => rfl
  | cons d r ih =>
    by_cases hd : pyIsSpace d = true
    · simp [collapseGo_cons, collapseWs, List.dropWhile_cons, hd, ih]
    · simp [collapseGo_cons, collapseWs, List.dropWhile_cons, hd]

theorem collapseWs_nil : collapseWs [] = [] := rfl

theorem collapseWs_cons_ws (c : Char) (rest : List Char) (h : pyIsSpace c = true) :
    collapseWs (c :: rest) = ' ' :: collapseWs (rest.dropWhile pyIsSpace) := by
  unfold collapseWs
  rw [collapseGo_cons, if_pos h, if_neg (by simp), collapseGo_true]
  rfl

theorem collapseWs_cons_not (c : Char) (rest : List Char) (h : pyIsSpace c = false) :
    collapseWs (c :: rest) = c :: collapseWs rest := by
  unfold collapseWs
  rw [collapseGo_cons, if_neg (by simp [h])]

/-- Induction principle following the whitespace-run structure of
    `collapseWs`. -/
theorem collapseWs_ind (motive : List Char → Prop) (h1 : motive [])
    (h2 : ∀ c rest, pyIsSpace c = true →
      motive (rest.dropWhile pyIsSpace) → motive (c :: rest))
    (h3 : ∀ c rest, pyIsSpace c = false → motive rest → motive (c :: rest)) :
    ∀ l, motive l := by
  have key : ∀ n (l : List Char), l.length ≤ n → motive l := by
    intro n
    induction n with
    | zero =>
      intro l hl
      rw [List.length_eq_zero.mp (Nat.le_zero.mp hl)]
      exact h1
    | succ n ih =>
      intro l hl
      cases l with
      | nil => exact h1
      | cons c rest =>
        by_cases hc : pyIsSpace c = true
        · refine h2 c rest hc (ih _ ?_)
          have := (List.dropWhile_sublist pyIsSpace (l := rest)).length_le
          simp only [List.length_cons] at hl
          omega
        · refine h3 c rest (by simp [hc]) (ih _ ?_)
          simp only [List.length_cons] at hl
          omega
  exact fun l => key l.length l (Nat.le_refl _)

theorem collapseWs_ws_mem (l : List Char) :
    ∀ c ∈ collapseWs l, pyIsSpace c = true → c = ' ' := by
  induction l using collapseWs_ind with
  | h1 => intro c hc; rw [collapseWs_nil] at hc; simp at hc
  | h2 c rest hc ih =>
    intro d hd hw
    rw [collapseWs_cons_ws c rest hc, List.mem_cons] at hd
    rcases hd with rfl | hd
    · rfl
    · exact ih d hd hw
  | h3 c rest hc ih =>
    intro d hd hw
    rw [collapseWs_cons_not c rest (by simpa using hc), List.mem_cons] at hd
    rcases hd with rfl | hd
    · exact absurd hw (by simpa using hc)
    · exact ih d hd hw

theorem collapseWs_head_not (l : List Char)
    (h : ∀ c ∈ l.head?, pyIsSpace c = false) :
    ∀ c ∈ (collapseWs l).head?, pyIsSpace c = false := by
  cases l with
  | nil => rw [collapseWs_nil]; intro c hc; simp at hc
  | cons a t =>
    have ha : pyIsSpace a = false := h a (by simp)
    rw [collapseWs_cons_not a t ha]
    intro c hc
    simp only [List.head?_cons, Option.mem_def, Option.some.injEq] at hc
    subst hc
    exact ha

theorem collapseWs_head_dropWhile (l : List Char) :
    ∀ c ∈ (collapseWs (l.dropWhile pyIsSpace)).head?, pyIsSpace c = false :=
  collapseWs_head_not _ (head_dropWhile_not pyIsSpace l)

theorem collapseWs_chain (l : List Char) :
    List.Chain' (fun a b => pyIsSpace a = false ∨ pyIsSpace b = false)
      (collapseWs l) := by
  induction l using collapseWs_ind with
  | h1 => rw [collapseWs_nil]; exact List.chain'_nil
  | h2 c rest hc ih =>
    rw [collapseWs_cons_ws c rest hc, List.chain'_cons']
    exact ⟨fun y hy => Or.inr (collapseWs_head_dropWhile rest y hy), ih⟩
  | h3 c rest hc ih =>
    rw [collapseWs_cons_not c rest (by simpa using hc), List.chain'_cons']
    exact ⟨fun y _ => Or.inl (by simpa using hc), ih⟩

theorem collapseWs_eq_self (l : List Char)
    (hmem : ∀ c ∈ l, pyIsSpace c = true → c = ' ')
    (hch : List.Chain' (fun a b => pyIsSpace a = false ∨ pyIsSpace b = false) l) :
    collapseWs l = l := by
  induction l with
  | nil => exact collapseWs_nil
  | cons c rest ih =>
    rw [List.chain'_cons'] at hch
    by_cases hc : pyIsSpace c = true
    · have hcs : c = ' ' := hmem c (by simp) hc
      rw [collapseWs_cons_ws c rest hc]
      have hrest : rest.dropWhile pyIsSpace = rest := by
        apply dropWhile_eq_self_of_head
        intro y hy
        rcases hch.1 y hy with h | h
        · simp [hc] at h
        · exact h
      rw [hrest, ih (fun d hd hw => hmem d (List.mem_cons_of_mem _ hd) hw) hch.2, hcs]
    · rw [collapseWs_cons_not c rest (by simpa using hc),
        ih (fun d hd hw => hmem d (List.mem_cons_of_mem _ hd) hw) hch.2]

theorem collapseWs_subset (l : List Char) :
    ∀ c ∈ collapseWs l, c = ' ' ∨ c ∈ l := by
  induction l using collapseWs_ind with
  | h1 => rw [collapseWs_nil]; intro c hc; simp at hc
  | h2 c rest hc ih =>
    intro d hd
    rw [collapseWs_cons_ws c rest hc, List.mem_cons] at hd
    rcases hd with rfl | hd
    · exact Or.inl rfl
    · rcases ih d hd with h | h
      · exact Or.inl h
      · exact Or.inr (List.mem_cons_of_mem _
          (List.Sublist.mem h (List.dropWhile_sublist _)))
  | h3 c rest hc ih =>
    intro d hd
    rw [collapseWs_cons_not c rest (by simpa using hc), List.mem_cons] at hd
    rcases hd with rfl | hd
    · exact Or.inr (by simp)
    · rcases ih d hd with h | h
      · exact Or.inl h
      · exact Or.inr (List.mem_cons_of_mem _ h)

theorem collapseWs_getLast (l : List Char) :
    ∀ a, l.getLast? = some a → pyIsSpace a = false →
      (collapseWs l).getLast? = some a := by
  induction l using collapseWs_ind with
  | h1 => intro a h _; simp at h
  | h2 c rest hc ih =>
    intro a h ha
    rw [collapseWs_cons_ws c rest hc]
    have hrest : rest ≠ [] := by
      intro he
      subst he
      simp only [List.getLast?_singleton, Option.some.injEq] at h
      subst h
      simp [hc] at ha
    have hgl : rest.getLast? = some a := by
      cases rest with
      | nil => exact absurd rfl hrest
      | cons d u => rw [List.getLast?_cons_cons] at h; exact h
    have hdw : rest.dropWhile pyIsSpace ≠ [] := by
      intro he
      rw [List.dropWhile_eq_nil_iff] at he
      have := he a (getLast?_mem' hgl)
      simp [this] at ha
    have hgl2 : (rest.dropWhile pyIsSpace).getLast? = some a := by
      rw [getLast?_dropWhile _ _ hdw]; exact hgl
    have hres := ih a hgl2 ha
    cases hcw : collapseWs (rest.dropWhile pyIsSpace) with
    | nil => rw [hcw] at hres; simp at hres
    | cons e v => rw [hcw] at hres; rw [List.getLast?_cons_cons]; exact hres
  | h3 c rest hc ih =>
    intro a h ha
    rw [collapseWs_cons_not c rest (by simpa using hc)]
    cases hr : rest with
    | nil =>
      subst hr
      rw [collapseWs_nil]
      simpa using h
    | cons d u =>
      subst hr
      rw [List.getLast?_cons_cons] at h
      have hres := ih a h ha
      cases hcw : collapseWs (d :: u) with
      | nil => rw [hcw] at hres; simp at hres
      | cons e v => rw [hcw] at hres; rw [List.getLast?_cons_cons]; exact hres

theorem pyStrip_eq_self (l : List Char)
    (h1 : ∀ c ∈ l.head?, pyIsSpace c = false)
    (h2 : ∀ c ∈ l.getLast?, pyIsSpace c = false) : pyStrip l = l := by
  unfold pyStrip
  rw [dropWhile_eq_self_of_head pyIsSpace l h1]
  have h3 : l.reverse.dropWhile pyIsSpace = l.reverse := by
    apply dropWhile_eq_self_of_head
    intro c hc
    rw [List.head?_reverse] at hc
    exact h2 c hc
  rw [h3, List.reverse_reverse]

theorem pyStrip_getLast_not (l : List Char) :
    ∀ c ∈ (pyStrip l).getLast?, pyIsSpace c = false := by
  intro c hc
  unfold pyStrip at hc
  rw [List.getLast?_reverse] at hc
  exact head_dropWhile_not _ _ c hc

theorem pyStrip_head_not (l : List Char) :
    ∀ c ∈ (pyStrip l).head?, pyIsSpace c = false := by
  intro c hc
  unfold pyStrip at hc
  rw [List.head?_reverse] at hc
  by_cases hd : (l.dropWhile pyIsSpace).reverse.dropWhile pyIsSpace = []
  · rw [hd] at hc; simp at hc
  · rw [getLast?_dropWhile _ _ hd, List.getLast?_reverse] at hc
    exact head_dropWhile_not _ _ c hc

theorem normQuote1_id (c : Char) : normQuote1 c = c := by
  unfold normQuote1 dQuoteChars
  split
  · rename_i h
    simp only [List.mem_cons, List.not_mem_nil, or_false, or_self] at h
    exact h.symm
  · rfl

theorem normQuote2_id (c : Char) : normQuote2 c = c := by
  unfold normQuote2 sQuoteChars
  split
  · rename_i h
    simp only [List.mem_cons, List.not_mem_nil, or_false, or_self] at h
    exact h.symm
  · rfl

theorem pyNormalize_eq_collapse (l : List Char) :
    pyNormalize l = collapseWs (pyStrip l) := by
  unfold pyNormalize
  rw [funext normQuote1_id, funext normQuote2_id]
  simp only [List.map_id']

/-- C9: the normalizer `_normalize_text_for_matching` is idempotent:
    normalizing an already-normalized string (quote-variant canonicalization,
    whitespace-run collapsing, trimming) returns it unchanged. -/
theorem claim_C9_normalizer_idempotent (x : List Char) :
    pyNormalize (pyNormalize x) = pyNormalize x := by
  rw [pyNormalize_eq_collapse, pyNormalize_eq_collapse]
  set y := collapseWs (pyStrip x) with hy
  have hmem : ∀ c ∈ y, pyIsSpace c = true → c = ' ' := collapseWs_ws_mem _
  have hch := collapseWs_chain (pyStrip x)
  have hhead : ∀ c ∈ y.head?, pyIsSpace c = false :=
    collapseWs_head_not _ (pyStrip_head_not x)
  have hlast : ∀ c ∈ y.getLast?, pyIsSpace c = false := by
    intro c hc
    cases hg : (pyStrip x).getLast? with
    | none =>
      rw [List.getLast?_eq_none_iff] at hg
      rw [hy, hg, collapseWs_nil] at hc
      simp at hc
    | some a =>
      have ha : pyIsSpace a = false := pyStrip_getLast_not x a (by simp [hg])
      have hgl := collapseWs_getLast (pyStrip x) a hg ha
      rw [← hy] at hgl
      rw [hgl] at hc
      simp only [Option.mem_def, Option.some.injEq] at hc
      subst hc
      exact ha
  rw [pyStrip_eq_self y hhead hlast, collapseWs_eq_self y hmem hch]

/-! ## C1: exact matching takes precedence over fuzzy matching -/

theorem pyFind_some_spec (text needle : List Char) :
    ∀ fuel start pos, text.length + 1 - start ≤ fuel →
      pyFind text needle start = some pos →
      start ≤ pos ∧ pos ≤ text.length ∧ matchAt text needle pos = true ∧
        ∀ i, start ≤ i → i < pos → matchAt text needle i = false := by
  intro fuel
  induction fuel with
  | zero =>
    intro start pos hf h
    unfold pyFind at h
    rw [dif_neg (by omega)] at h
    cases h
  | succ n ih =>
    intro start pos hf h
    unfold pyFind at h
    by_cases hs : start ≤ text.length
    · rw [dif_pos hs] at h
      by_cases hm : matchAt text needle start = true
      · rw [if_pos hm] at h
        cases h
        exact ⟨Nat.le_refl _, hs, hm, fun i h1 h2 => absurd h1 (by omega)⟩
      · rw [if_neg hm] at h
        have hrec := ih (start + 1) pos (by omega) h
        refine ⟨by omega, hrec.2.1, hrec.2.2.1, ?_⟩
        intro i h1 h2
        rcases Nat.eq_or_lt_of_le h1 with rfl | hlt
        · simpa using hm
        · exact hrec.2.2.2 i (by omega) h2
    · rw [dif_neg hs] at h
      cases h

theorem pyFind_none_spec (text needle : List Char) :
    ∀ fuel start, text.length + 1 - start ≤ fuel →
      pyFind text needle start = none →
      ∀ i, start ≤ i → i ≤ text.length → matchAt text needle i = false := by
  intro fuel
  induction fuel with
  | zero =>
    intro start hf h i h1 h2
    omega
  | succ n ih =>
    intro start hf h i h1 h2
    unfold pyFind at h
    by_cases hs : start ≤ text.length
    · rw [dif_pos hs] at h
      by_cases hm : matchAt text needle start = true
      · rw [if_pos hm] at h; cases h
      · rw [if_neg hm] at h
        rcases Nat.eq_or_lt_of_le h1 with rfl | hlt
        · simpa using hm
        · exact ih (start + 1) (by omega) h i (by omega) h2
    · omega

theorem findExactGo_eq (text needle : List Char) :
    ∀ fuel start, text.length + 1 - start ≤ fuel →
      findExactGo text needle fuel start =
        ((List.range' start (text.length + 1 - start)).filter
          (fun i => matchAt text needle i)).map (fun i => (i, i + needle.length)) := by
  intro fuel
  induction fuel with
  | zero =>
    intro start hf
    have h0 : text.length + 1 - start = 0 := by omega
    rw [h0]
    simp [findExactGo]
  | succ n ih =>
    intro start hf
    cases hp : pyFind text needle start with
    | none =>
      have hstep : findExactGo text needle (n + 1) start = [] := by
        rw [findExactGo, hp]
      have hnone := pyFind_none_spec text needle (text.length + 1 - start) start
        (Nat.le_refl _) hp
      rw [hstep]
      symm
      rw [List.map_eq_nil_iff, List.filter_eq_nil_iff]
      intro i hi
      rw [List.mem_range'_1] at hi
      simp only [Bool.not_eq_true]
      exact hnone i hi.1 (by omega)
    | some pos =>
      have hstep : findExactGo text needle (n + 1) start =
          (pos, pos + needle.length) :: findExactGo text needle n (pos + 1) := by
        rw [findExactGo, hp]
      rw [hstep]
      have hspec := pyFind_some_spec text needle (text.length + 1 - start) start pos
        (Nat.le_refl _) hp
      obtain ⟨hsp, hpl, hmp, hbefore⟩ := hspec
      have hsplit : List.range' start (text.length + 1 - start) =
          List.range' start (pos - start) ++ List.range' pos (text.length + 1 - pos) := by
        have e1 : start + (pos - start) = pos := by omega
        have e2 : text.length + 1 - pos + (pos - start) = text.length + 1 - start := by
          omega
        have h3 := List.range'_append_1 start (pos - start) (text.length + 1 - pos)
        rw [e1, e2] at h3
        exact h3.symm
      rw [hsplit, List.filter_append]
      have hfirst : (List.range' start (pos - start)).filter
          (fun i => matchAt text needle i) = [] := by
        rw [List.filter_eq_nil_iff]
        intro i hi
        rw [List.mem_range'_1] at hi
        simp only [Bool.not_eq_true]
        exact hbefore i hi.1 (by omega)
      rw [hfirst, List.nil_append]
      have hsucc : text.length + 1 - pos = (text.length - pos) + 1 := by omega
      rw [hsucc, List.range'_succ, List.filter_cons_of_pos hmp, List.map_cons]
      have htail : text.length - pos = text.length + 1 - (pos + 1) := by omega
      rw [htail, ih (pos + 1) (by omega)]

theorem findExactMatches_eq_occSpans (text needle : List Char) :
    findExactMatches text needle = occSpans text needle := by
  unfold findExactMatches occSpans
  rw [findExactGo_eq text needle (text.length + 1) 0 (by omega)]
  rw [List.range_eq_range']
  simp

/-- C1: whenever the needle occurs verbatim (case-sensitively) anywhere in the
    haystack, `_find_text_occurrences` returns exactly the spans of all exact
    occurrences and never falls through to the normalized/fuzzy search, so no
    fuzzy-only candidate can appear in the result. -/
theorem claim_C1_exact_match_precedence (text needle : List Char)
    (h : occSpans text needle ≠ []) :
    findTextOccurrences text needle = occSpans text needle := by
  unfold findTextOccurrences
  rw [findExactMatches_eq_occSpans]
  simp [h]

/-- Witness for C1: a haystack in which the needle occurs verbatim twice. -/
theorem claim_C1_witness :
    occSpans ("abcabc").toList ("abc").toList ≠ [] ∧
      findTextOccurrences ("abcabc").toList ("abc").toList =
        occSpans ("abcabc").toList ("abc").toList :=
  ⟨by decide, claim_C1_exact_match_precedence _ _ (by decide)⟩

/-! ## C3: the overlap resolver returns pairwise non-overlapping spans -/

theorem selectNonOverlapping_pairwise (rest : List ReplacementMatch) :
    ∀ acc, acc.Pairwise rmSeparate →
      (selectNonOverlapping acc rest).Pairwise rmSeparate := by
  induction rest with
  | nil => intro acc h; exact h
  | cons m tail ih =>
    intro acc h
    rw [selectNonOverlapping]
    by_cases hov : acc.any (fun accepted => rmOverlaps m accepted) = true
    · rw [if_pos hov]
      exact ih acc h
    · rw [if_neg hov]
      apply ih
      rw [List.pairwise_append]
      refine ⟨h, List.pairwise_singleton _ _, ?_⟩
      intro a ha b hb
      rw [List.mem_singleton] at hb
      rw [hb]
      have hcon : ¬ (m.startPos < a.endPos ∧ m.endPos > a.startPos) := by
        intro hc
        apply hov
        refine List.any_eq_true.mpr ⟨a, ha, ?_⟩
        unfold rmOverlaps
        simp only [Bool.and_eq_true, decide_eq_true_eq]
        exact hc
      unfold rmSeparate
      omega

/-- C3: for every input list, `_remove_overlapping_matches` returns a list in
    which no two spans overlap (every pair satisfies `a.end ≤ b.start` or
    `b.end ≤ a.start`), and the caller's subsequent descending re-sort of the
    accepted spans is ordered by descending start position. -/
theorem claim_C3_overlap_resolver (ms : List ReplacementMatch) :
    (removeOverlappingMatches ms).Pairwise rmSeparate ∧
      (orderForApplication (removeOverlappingMatches ms)).Pairwise
        (fun a b => b.startPos ≤ a.startPos) := by
  constructor
  · unfold removeOverlappingMatches
    by_cases h : ms = []
    · rw [if_pos h, h]
      exact List.Pairwise.nil
    · rw [if_neg h]
      exact selectNonOverlapping_pairwise _ [] List.Pairwise.nil
  · unfold orderForApplication
    have hs := sortBy_pairwise
      (fun a b : ReplacementMatch => decide (b.startPos ≤ a.startPos))
      (fun a b c hab hbc => by
        simp only [decide_eq_true_eq] at hab hbc ⊢
        omega)
      (fun a b => by
        simp only [decide_eq_true_eq]
        omega)
      (removeOverlappingMatches ms)
    exact hs.imp (fun {a b} hab => by simpa using hab)

/-! ## C8: the similarity gate -/

theorem splitWs_nil : splitWs [] = [] := by
  unfold splitWs
  rfl

theorem ite_false_eq_true_iff (c : Prop) [Decidable c] (d : Bool) :
    (if c then false else d) = true ↔ ¬ c ∧ d = true := by
  by_cases h : c
  · simp [h]
  · simp [h]

/-- C8: `_is_reasonable_match` accepts exactly when the length ratio
    `len(found)/len(needle)` lies in `[0.8, 1.2]` and at least 70% of the
    needle's whitespace-delimited words occur (case-insensitively) among the
    found slice's words; in particular a 13-character needle against a
    20-character found slice is always rejected (ratio `20/13 > 1.2`). -/
theorem claim_C8_similarity_gate (foundText searchText : List Char) :
    (splitWs (lowerL searchText) ≠ [] →
      (isReasonableMatch foundText searchText = true ↔
        ((4/5 : Rat) ≤ (foundText.length : Rat) / (searchText.length : Rat) ∧
         (foundText.length : Rat) / (searchText.length : Rat) ≤ 6/5 ∧
         (7/10 : Rat) ≤
           (((splitWs (lowerL searchText)).filter
               (fun w => (splitWs (lowerL foundText)).contains w)).length : Rat) /
             ((splitWs (lowerL searchText)).length : Rat)))) ∧
    (foundText.length = 20 → searchText.length = 13 →
      isReasonableMatch foundText searchText = false) := by
  constructor
  · intro hw
    have hsne : searchText ≠ [] := by
      intro he
      apply hw
      rw [he]
      exact splitWs_nil
    have hs : 0 < searchText.length := List.length_pos.mpr hsne
    have hwpos : 0 < (splitWs (lowerL searchText)).length :=
      List.length_pos.mpr hw
    simp only [isReasonableMatch]
    rw [if_pos hs, if_pos hwpos, ite_false_eq_true_iff, decide_eq_true_eq]
    simp only [Bool.or_eq_true, decide_eq_true_eq, not_or, not_lt]
    exact and_assoc
  · intro hf hsl
    simp only [isReasonableMatch, hf, hsl]
    norm_num

/-- Witness for C8: an accepted equal pair and the rejected 20-vs-13 pair. -/
theorem claim_C8_witness :
    isReasonableMatch ("abc").toList ("abc").toList = true ∧
      isReasonableMatch ("abcdefghijklmnopqrst").toList
        ("abcdefghijklm").toList = false :=
  ⟨((claim_C8_similarity_gate _ _).1 (by decide)).mpr
    (by
      have hl : ("abc").toList.length = 3 := by decide
      have hc : ((splitWs (lowerL ("abc").toList)).filter
          (fun w => (splitWs (lowerL ("abc").toList)).contains w)).length = 1 := by
        decide
      have hw : (splitWs (lowerL ("abc").toList)).length = 1 := by decide
      rw [hl, hc, hw]
      norm_num),
   (claim_C8_similarity_gate _ _).2 (by decide) (by decide)⟩

/-! ## C2: style of the text after a replaced span (code bug) -/

/-- C2 (code bug in `_replace_paragraph_text`): on the paragraph
    `[("AB", bold), ("CD", italic)]` with the accepted span `[1, 3)` ("BC")
    replaced by `"X"`, the rewrite styles the trailing `"D"` with the style
    found at the pre-edit start offset of the match (bold, the style of run
    "AB"), not with `"D"`'s own pre-edit style (italic): the source passes
    `replacement_start` to `_find_style_for_original_position` for the
    after-text although its own comment says the after-text "should use the
    style from the original position after the match". -/
theorem claim_C2_after_style_bug :
    replaceParagraphText
        [Run.mk ['A', 'B'] { bold := some true },
         Run.mk ['C', 'D'] { italic := some true }]
        ['A', 'X', 'D']
        (getStyleAtPosition
          [Run.mk ['A', 'B'] { bold := some true },
           Run.mk ['C', 'D'] { italic := some true }] 1)
        1 1 =
      [Run.mk ['A'] { bold := some true },
       Run.mk ['X'] { bold := some true },
       Run.mk ['D'] { bold := some true }] ∧
    [Run.mk ['D'] ({ bold := some true } : RStyle)] ≠
      [Run.mk ['D'] ({ italic := some true } : RStyle)] := by
  constructor
  · decide
  · decide

/-! ## C6: cross-paragraph run surgery (corrected: green highlight) -/

/-- C6 counterexample: the first affected run's style is not left unchanged
    by `_replace_in_runs`: a first run with no highlight color comes back
    highlighted `WD_COLOR.GREEN`. -/
theorem claim_C6_counterexample :
    (replaceInRuns [SpanRun.mk (Run.mk ['a', 'b'] {}) 0 0 0 1] ['x']).head? =
        some (some (Run.mk ['x', 'b'] { highlight := some wdGreen })) ∧
      (some wdGreen : Option (List Char)) ≠ ({} : RStyle).highlight := by
  constructor
  · decide
  · decide

/-- C6 (amended): `_replace_in_runs` writes the replacement text into the
    first affected run's covered slice, keeping its font and color but
    setting its highlight color to green; every subsequent run that is fully
    covered by the match is removed, and every partially covered subsequent
    run loses exactly the covered slice while keeping its remaining text and
    its style. -/
theorem claim_C6_run_surgery (first : SpanRun) (restSpans : List SpanRun)
    (repl : List Char) :
    (replaceInRuns (first :: restSpans) repl).head? =
        some (some (Run.mk
          (first.run.text.take first.startOff ++ repl ++
            first.run.text.drop first.endOff)
          { first.run.style with highlight := some wdGreen })) ∧
      ∀ i, (replaceInRuns (first :: restSpans) repl)[i + 1]? =
        restSpans[i]?.map (fun s =>
          if s.startOff = 0 ∧ s.endOff = s.run.text.length then none
          else some (Run.mk (s.run.text.take s.startOff ++ s.run.text.drop s.endOff)
            s.run.style)) := by
  constructor
  · rfl
  · intro i
    show (replaceInRuns (first :: restSpans) repl)[i + 1]? = _
    unfold replaceInRuns
    rw [List.getElem?_cons_succ, List.getElem?_map]

/-- Witness for C6 at a concrete span list (one fully covered and one
    partially covered subsequent run). -/
theorem claim_C6_witness :
    (replaceInRuns
        [SpanRun.mk (Run.mk ['a', 'b'] {}) 0 0 1 2,
         SpanRun.mk (Run.mk ['c', 'd'] {}) 0 1 0 2,
         SpanRun.mk (Run.mk ['e', 'f'] {}) 1 0 0 1] ['X']).head? =
        some (some (Run.mk ['a', 'X'] { highlight := some wdGreen })) ∧
      (replaceInRuns
        [SpanRun.mk (Run.mk ['a', 'b'] {}) 0 0 1 2,
         SpanRun.mk (Run.mk ['c', 'd'] {}) 0 1 0 2,
         SpanRun.mk (Run.mk ['e', 'f'] {}) 1 0 0 1] ['X'])[1]? = some none ∧
      (replaceInRuns
        [SpanRun.mk (Run.mk ['a', 'b'] {}) 0 0 1 2,
         SpanRun.mk (Run.mk ['c', 'd'] {}) 0 1 0 2,
         SpanRun.mk (Run.mk ['e', 'f'] {}) 1 0 0 1] ['X'])[2]? =
        some (some (Run.mk ['f'] {})) := by
  refine ⟨(claim_C6_run_surgery _ _ _).1, ?_, ?_⟩
  · rw [(claim_C6_run_surgery _ [SpanRun.mk (Run.mk ['c', 'd'] {}) 0 1 0 2,
      SpanRun.mk (Run.mk ['e', 'f'] {}) 1 0 0 1] ['X']).2 0]
    decide
  · rw [(claim_C6_run_surgery _ [SpanRun.mk (Run.mk ['c', 'd'] {}) 0 1 0 2,
      SpanRun.mk (Run.mk ['e', 'f'] {}) 1 0 0 1] ['X']).2 1]
    decide

/-! ## C7: the green-highlight MF-prefix rule (corrected: direction) -/

/-- C7 counterexample: a fully green-highlighted segment "MF - Kundetype"
    with mapping title "Kundetype" does not match at all — the code accepts a
    mapping *title* carrying the "MF - " prefix for a segment equal to its
    suffix, not the other way round as the spec's scenario states. -/
theorem claim_C7_counterexample :
    highlightSegMatch ("MF - Kundetype").toList ("00FF00").toList
      [(("Kundetype").toList, ("kt").toList)] = none := by
  decide

theorem upperL_green :
    (upperL ("00FF00").toList == ("00FF00").toList) = true := by
  decide

/-- C7 (amended): for a segment whose highlight color is `"00FF00"`, the
    lookup runs with MF-prefix matching allowed and every successful lookup
    result gets its key prefixed with `"TextInput:"`; for any other highlight
    color the lookup runs with MF-prefix matching disabled (exact title
    equality only); in particular the green segment "Kundetype" with mapping
    title "MF - Kundetype" matches with key "TextInput:kt", while the same
    segment without the green highlight does not match that mapping. -/
theorem claim_C7_green_mf_rule :
    (∀ seg (m : Mappings) t k,
        findTitleMatchMf (pyStrip seg) m true = some (t, k) →
        highlightSegMatch seg ("00FF00").toList m =
          some (t, ("TextInput:").toList ++ k)) ∧
    (∀ seg hl (m : Mappings), upperL hl ≠ ("00FF00").toList →
        highlightSegMatch seg hl m = findTitleMatchMf (pyStrip seg) m false) ∧
    highlightSegMatch ("Kundetype").toList ("00FF00").toList
        [(("MF - Kundetype").toList, ("kt").toList)] =
      some (("MF - Kundetype").toList, ("TextInput:kt").toList) ∧
    highlightSegMatch ("Kundetype").toList ("FFFF00").toList
        [(("MF - Kundetype").toList, ("kt").toList)] = none := by
  refine ⟨?_, ?_, ?_, ?_⟩
  · intro seg m t k h
    simp only [highlightSegMatch, upperL_green, h]
    simp
  · intro seg hl m hne
    have hb : (upperL hl == ("00FF00").toList) = false :=
      beq_eq_false_iff_ne.mpr hne
    simp only [highlightSegMatch, hb]
    cases hm : findTitleMatchMf (pyStrip seg) m false with
    | none => rfl
    | some p => cases p with | mk t k => simp
  · decide
  · decide

/-- Witness for C7's universally quantified parts at concrete inputs. -/
theorem claim_C7_witness :
    highlightSegMatch ("kundetype ").toList ("00FF00").toList
        [(("MF - Kundetype").toList, ("kt").toList)] =
      some (("MF - Kundetype").toList, ("TextInput:").toList ++ ("kt").toList) ∧
    highlightSegMatch ("Kundetype").toList ("00ff01").toList
        [(("Kundetype").toList, ("kt").toList)] =
      findTitleMatchMf (pyStrip ("Kundetype").toList)
        [(("Kundetype").toList, ("kt").toList)] false :=
  ⟨(claim_C7_green_mf_rule).1 _ _ _ _ (by decide),
   (claim_C7_green_mf_rule).2.1 _ _ _ (by decide)⟩

/-! ## C10: cross-pattern deduplication of reported match texts -/

theorem dictGet_cons (k' : List Char) (v' : List ReportEntry) (rest : ReResults)
    (k : List Char) :
    dictGet ((k', v') :: rest) k = if k' = k then v' else dictGet rest k := by
  unfold dictGet
  rw [List.find?_cons]
  by_cases h : k' = k
  · simp [h]
  · simp [h]

theorem allReportedTexts_cons (k : List Char) (v : List ReportEntry)
    (rest : ReResults) :
    allReportedTexts ((k, v) :: rest) =
      v.map ReportEntry.fullText ++ allReportedTexts rest := by
  simp [allReportedTexts]

theorem dictSet_nil_sublist (d : ReResults) (k : List Char) :
    (allReportedTexts (dictSet d k [])).Sublist (allReportedTexts d) := by
  induction d with
  | nil => simp [dictSet, allReportedTexts]
  | cons p rest ih =>
    cases p with
    | mk k' v' =>
      unfold dictSet
      by_cases h : k' = k
      · rw [if_pos h, allReportedTexts_cons, allReportedTexts_cons]
        simp only [List.map_nil, List.nil_append]
        exact List.sublist_append_right _ _
      · rw [if_neg h, allReportedTexts_cons, allReportedTexts_cons]
        exact List.Sublist.append_left ih _

theorem dictSet_append_perm (d : ReResults) (k : List Char) (e : ReportEntry) :
    (allReportedTexts (dictSet d k (dictGet d k ++ [e]))).Perm
      (allReportedTexts d ++ [e.fullText]) := by
  induction d with
  | nil =>
    simp [dictSet, dictGet, allReportedTexts]
  | cons p rest ih =>
    cases p with
    | mk k' v' =>
      rw [dictGet_cons]
      by_cases h : k' = k
      · rw [if_pos h]
        unfold dictSet
        rw [if_pos h, allReportedTexts_cons, allReportedTexts_cons, List.map_append]
        rw [List.append_assoc, List.append_assoc]
        exact List.Perm.append_left _ List.perm_append_comm
      · rw [if_neg h]
        unfold dictSet
        rw [if_neg h, allReportedTexts_cons, allReportedTexts_cons, List.append_assoc]
        exact List.Perm.append_left _ ih

theorem findPatternsInner_inv (pstr : List Char) (msList : List ReMatch) :
    ∀ results seen,
      (allReportedTexts results).Nodup →
      (∀ t ∈ allReportedTexts results, t ∈ seen) →
      (allReportedTexts (findPatternsInner pstr msList results seen).1).Nodup ∧
        (∀ t ∈ allReportedTexts (findPatternsInner pstr msList results seen).1,
          t ∈ (findPatternsInner pstr msList results seen).2) := by
  induction msList with
  | nil =>
    intro results seen h1 h2
    exact ⟨h1, h2⟩
  | cons m rest ih =>
    intro results seen h1 h2
    unfold findPatternsInner
    by_cases hm : m.fullText ∈ seen
    · rw [if_pos hm]
      exact ih results seen h1 h2
    · rw [if_neg hm]
      have hperm := dictSet_append_perm results pstr ⟨m.fullText, m.groups.filterMap id⟩
      apply ih
      · apply hperm.symm.nodup
        rw [List.nodup_append]
        refine ⟨h1, List.nodup_singleton _, ?_⟩
        intro x hx hx1
        rw [List.mem_singleton] at hx1
        subst hx1
        exact hm (h2 _ hx)
      · intro t ht
        have hmem := hperm.mem_iff.mp ht
        rw [List.mem_append] at hmem
        rcases hmem with hmem | hmem
        · exact List.mem_append_left _ (h2 t hmem)
        · rw [List.mem_singleton] at hmem
          subst hmem
          exact List.mem_append_right _ (by simp)

theorem findPatternsGo_inv (pats : List RePat) :
    ∀ results seen,
      (allReportedTexts results).Nodup →
      (∀ t ∈ allReportedTexts results, t ∈ seen) →
      (allReportedTexts (findPatternsGo pats results seen)).Nodup := by
  induction pats with
  | nil =>
    intro results seen h1 _
    exact h1
  | cons pat rest ih =>
    intro results seen h1 h2
    unfold findPatternsGo
    have hsub := dictSet_nil_sublist results pat.pstr
    have hinner := findPatternsInner_inv pat.pstr pat.ms _ _ (hsub.nodup h1)
      (fun t ht => h2 t (hsub.subset ht))
    exact ih _ _ hinner.1 hinner.2

/-- C10: `DocumentRegexFinder.find_patterns` reports each distinct matched
    full text at most once across all patterns combined: the list of all
    reported full texts in the returned dictionary has no duplicates, because
    a match whose full text was already reported (by any pattern) is skipped
    via the shared seen-set. -/
theorem claim_C10_cross_pattern_dedup (pats : List RePat) :
    (allReportedTexts (findPatterns pats)).Nodup :=
  findPatternsGo_inv pats [] [] (by simp [allReportedTexts]) (by simp [allReportedTexts])

/-! ## C5: the cross-paragraph text index and affected-run collection -/

theorem runCells_map_ch (p r : Nat) : ∀ (t : List Char) (i : Nat),
    (runCells p r t i).map Cell.ch = t := by
  intro t
  induction t with
  | nil => intro i; rfl
  | cons ch rest ih =>
    intro i
    simp [runCells, ih]

theorem paraCells_map_ch (p : Nat) : ∀ (runs : List (List Char)) (r : Nat),
    (paraCells p runs r).map Cell.ch = runs.flatten := by
  intro runs
  induction runs with
  | nil => intro r; rfl
  | cons t rest ih =>
    intro r
    simp [paraCells, List.map_append, runCells_map_ch, ih, List.flatten_cons]

theorem intercalate_sep_cons_cons (x y : List Char) (r : List (List Char)) :
    List.intercalate [paraSep] (x :: y :: r) =
      x ++ paraSep :: List.intercalate [paraSep] (y :: r) := by
  unfold List.intercalate
  rw [List.intersperse_cons_cons, List.flatten_cons, List.flatten_cons]
  simp

theorem buildCells_map_ch (doc : PDoc) : ∀ (p : Nat),
    (buildCells p doc).map Cell.ch =
      List.intercalate [paraSep] (doc.map List.flatten) := by
  induction doc with
  | nil => intro p; rfl
  | cons para rest ih =>
    intro p
    cases rest with
    | nil =>
      show (paraCells p para 0).map Cell.ch = _
      rw [paraCells_map_ch]
      simp [List.intercalate]
    | cons para2 rest2 =>
      show ((paraCells p para 0) ++
          (⟨p, none, paraSep⟩ :: buildCells (p + 1) (para2 :: rest2))).map Cell.ch = _
      simp only [List.map_append, List.map_cons, paraCells_map_ch, ih (p + 1),
        intercalate_sep_cons_cons]

theorem runCells_mem (p r : Nat) : ∀ (t : List Char) (i : Nat) (c : Cell),
    c ∈ runCells p r t i → c.pIdx = p ∧ ∃ o, c.run = some (r, o) := by
  intro t
  induction t with
  | nil =>
    intro i c hc
    simp [runCells] at hc
  | cons ch rest ih =>
    intro i c hc
    rw [runCells, List.mem_cons] at hc
    rcases hc with rfl | hc
    · exact ⟨rfl, i, rfl⟩
    · exact ih (i + 1) c hc

theorem paraCells_mem (p : Nat) : ∀ (runs : List (List Char)) (r0 : Nat) (c : Cell),
    c ∈ paraCells p runs r0 →
      c.pIdx = p ∧ ∃ q o, c.run = some (q, o) ∧ r0 ≤ q := by
  intro runs
  induction runs with
  | nil =>
    intro r0 c hc
    simp [paraCells] at hc
  | cons t rest ih =>
    intro r0 c hc
    rw [paraCells, List.mem_append] at hc
    rcases hc with hc | hc
    · obtain ⟨hp, o, ho⟩ := runCells_mem p r0 t 0 c hc
      exact ⟨hp, r0, o, ho, Nat.le_refl _⟩
    · obtain ⟨hp, q, o, ho, hq⟩ := ih (r0 + 1) c hc
      exact ⟨hp, q, o, ho, by omega⟩

theorem chain'_runCells (p r : Nat) : ∀ (t : List Char) (i : Nat),
    List.Chain' cellStep (runCells p r t i) := by
  intro t
  induction t with
  | nil => intro i; exact List.chain'_nil
  | cons ch rest ih =>
    intro i
    rw [runCells, List.chain'_cons']
    refine ⟨?_, ih (i + 1)⟩
    cases rest with
    | nil =>
      intro y hy
      simp [runCells] at hy
    | cons d rr =>
      intro y hy
      rw [runCells, List.head?_cons, Option.mem_def, Option.some.injEq] at hy
      subst hy
      intro r1 o1 h1 r2 o2 h2 _ _
      simp only [Option.some.injEq, Prod.mk.injEq] at h1 h2
      omega

theorem chain'_paraCells (p : Nat) : ∀ (runs : List (List Char)) (r0 : Nat),
    List.Chain' cellStep (paraCells p runs r0) := by
  intro runs
  induction runs with
  | nil => intro r0; exact List.chain'_nil
  | cons t rest ih =>
    intro r0
    rw [paraCells, List.chain'_append]
    refine ⟨chain'_runCells p r0 t 0, ih (r0 + 1), ?_⟩
    intro x hx y hy
    have hxmem : x ∈ runCells p r0 t 0 := getLast?_mem' (Option.mem_def.mp hx)
    have hymem : y ∈ paraCells p rest (r0 + 1) := List.mem_of_mem_head? hy
    obtain ⟨_, ox, hox⟩ := runCells_mem p r0 t 0 x hxmem
    obtain ⟨_, q, oy, hoy, hq⟩ := paraCells_mem p rest (r0 + 1) y hymem
    intro r1 o1 h1 r2 o2 h2 _ hr
    rw [hox] at h1
    rw [hoy] at h2
    simp only [Option.some.injEq, Prod.mk.injEq] at h1 h2
    omega

theorem chain'_buildCells (doc : PDoc) : ∀ (p : Nat),
    List.Chain' cellStep (buildCells p doc) := by
  induction doc with
  | nil => intro p; exact List.chain'_nil
  | cons para rest ih =>
    intro p
    cases rest with
    | nil => exact chain'_paraCells p para 0
    | cons para2 rest2 =>
      show List.Chain' cellStep (paraCells p para 0 ++
        (⟨p, none, paraSep⟩ :: buildCells (p + 1) (para2 :: rest2)))
      rw [List.chain'_append]
      refine ⟨chain'_paraCells p para 0, ?_, ?_⟩
      · rw [List.chain'_cons']
        refine ⟨?_, ih (p + 1)⟩
        intro y _
        intro r1 o1 h1
        cases h1
      · intro x _ y hy
        rw [List.head?_cons, Option.mem_def, Option.some.injEq] at hy
        subst hy
        intro r1 o1 _ r2 o2 h2
        cases h2

theorem collectGo_cons (c : Cell) (rest : List Cell) (cur : Option RunSpan) :
    collectGo (c :: rest) cur =
      match c.run with
      | none =>
        match cur with
        | some s => s :: collectGo rest none
        | none => collectGo rest none
      | some (r, off) =>
        match cur with
        | none => collectGo rest (some ⟨c.pIdx, r, off, off + 1⟩)
        | some s =>
          if s.pIdx = c.pIdx ∧ s.rIdx = r then
            collectGo rest (some { s with endOff := off + 1 })
          else s :: collectGo rest (some ⟨c.pIdx, r, off, off + 1⟩) := rfl

theorem spanCells_single (p r o : Nat) :
    spanCells ⟨p, r, o, o + 1⟩ = [(p, r, o)] := by
  unfold spanCells
  norm_num

theorem spanCells_extend (s : RunSpan) (h : s.startOff ≤ s.endOff) :
    spanCells { s with endOff := s.endOff + 1 } =
      spanCells s ++ [(s.pIdx, s.rIdx, s.endOff)] := by
  unfold spanCells
  simp only []
  have h3 := List.range'_append_1 s.startOff (s.endOff - s.startOff) 1
  rw [show s.startOff + (s.endOff - s.startOff) = s.endOff from by omega] at h3
  rw [show s.endOff + 1 - s.startOff = 1 + (s.endOff - s.startOff) from by omega, ← h3]
  rw [List.map_append]
  rfl

theorem collectGo_flatMap : ∀ (cells : List Cell),
    List.Chain' cellStep cells →
    ∀ (cur : Option RunSpan),
      (∀ s, cur = some s → s.startOff ≤ s.endOff ∧
        ∀ c ∈ cells.head?, ∀ r' o', c.run = some (r', o') →
          s.pIdx = c.pIdx → s.rIdx = r' → o' = s.endOff) →
      ((collectGo cells cur).flatMap spanCells) =
        (match cur with | none => [] | some s => spanCells s) ++
          cells.filterMap cellOrigin := by
  intro cells
  induction cells with
  | nil =>
    intro _ cur _
    cases cur with
    | none => rfl
    | some s => simp [collectGo]
  | cons c rest ih =>
    intro hch cur hcur
    rw [collectGo_cons, List.filterMap_cons]
    rw [List.chain'_cons'] at hch
    cases hc : c.run with
    | none =>
      have hrec := ih hch.2 none (fun s hs => by cases hs)
      simp only [] at hrec
      have horig : cellOrigin c = none := by simp [cellOrigin, hc]
      rw [horig]
      cases cur with
      | none =>
        simp only []
        rw [List.nil_append]
        rw [hrec]
        rfl
      | some s =>
        simp only [List.flatMap_cons]
        rw [hrec]
        rfl
    | some ro =>
      cases ro with
      | mk r off =>
        have horig : cellOrigin c = some (c.pIdx, r, off) := by simp [cellOrigin, hc]
        rw [horig]
        cases cur with
        | none =>
          simp only []
          have hrec := ih hch.2 (some ⟨c.pIdx, r, off, off + 1⟩) ?_
          · rw [hrec]
            simp [spanCells_single]
          · intro s hs
            rw [Option.some.injEq] at hs
            subst hs
            refine ⟨by simp, ?_⟩
            intro c2 hc2 r' o' h2 hp hr
            have hstep := hch.1 c2 hc2
            exact hstep r off hc r' o' h2 hp hr
        | some s =>
          obtain ⟨hso, hnext⟩ := hcur s rfl
          simp only []
          by_cases hsame : s.pIdx = c.pIdx ∧ s.rIdx = r
          · rw [if_pos hsame]
            have hoff : off = s.endOff := hnext c rfl r off hc hsame.1 hsame.2
            have hrec := ih hch.2 (some { s with endOff := off + 1 }) ?_
            · rw [hrec]
              simp only []
              rw [hoff, spanCells_extend s hso]
              rw [← hsame.1, ← hsame.2]
              simp [List.append_assoc]
            · intro s2 hs2
              rw [Option.some.injEq] at hs2
              subst hs2
              refine ⟨by simp only []; omega, ?_⟩
              intro c2 hc2 r' o' h2 hp hr
              have hstep := hch.1 c2 hc2
              simp only [] at hp hr ⊢
              exact hstep r off hc r' o' h2 (hsame.1 ▸ hp) (hsame.2 ▸ hr)
          · rw [if_neg hsame]
            simp only [List.flatMap_cons]
            have hrec := ih hch.2 (some ⟨c.pIdx, r, off, off + 1⟩) ?_
            · rw [hrec]
              simp [spanCells_single]
            · intro s2 hs2
              rw [Option.some.injEq] at hs2
              subst hs2
              refine ⟨by simp, ?_⟩
              intro c2 hc2 r' o' h2 hp hr
              have hstep := hch.1 c2 hc2
              exact hstep r off hc r' o' h2 hp hr

theorem spanLe_trans (a b c : RunSpan) (h1 : spanLe a b = true)
    (h2 : spanLe b c = true) : spanLe a c = true := by
  unfold spanLe at *
  simp only [Bool.or_eq_true, Bool.and_eq_true, decide_eq_true_eq] at *
  omega

theorem spanLe_total (a b : RunSpan) : spanLe a b = true ∨ spanLe b a = true := by
  unfold spanLe
  simp only [Bool.or_eq_true, Bool.and_eq_true, decide_eq_true_eq]
  omega

/-- C5: the flattened stream built by `_build_text_index` is the concatenation
    of all run texts in document order with exactly one paragraph-separator
    sentinel between consecutive paragraphs and none after the last; and for
    every half-open span of that stream, `_collect_affected_run_spans` returns
    run slices that cover exactly the span's non-sentinel characters (no
    sentinel cell is ever covered), ordered ascending by
    `(paragraphIndex, runIndex)`. -/
theorem claim_C5_cross_paragraph_index (doc : PDoc) (start stop : Nat) :
    flatText doc = List.intercalate [paraSep] (doc.map List.flatten) ∧
      ((collectAffectedRunSpans (buildCells 0 doc) start stop).flatMap
          spanCells).Perm (coveredCells (buildCells 0 doc) start stop) ∧
      (collectAffectedRunSpans (buildCells 0 doc) start stop).Pairwise
        (fun a b => spanLe a b = true) := by
  refine ⟨buildCells_map_ch doc 0, ?_, ?_⟩
  · unfold collectAffectedRunSpans coveredCells
    have hchain := ((chain'_buildCells doc 0).drop start).take (stop - start)
    have hwalk := collectGo_flatMap _ hchain none (fun s hs => by cases hs)
    simp only [List.nil_append] at hwalk
    have hperm := List.Perm.flatMap_right spanCells
      (sortBy_perm spanLe
        (collectGo (((buildCells 0 doc).drop start).take (stop - start)) none))
    rw [hwalk] at hperm
    exact hperm
  · exact sortBy_pairwise spanLe spanLe_trans spanLe_total _

/-! ## C4: the IF-field synthesis round trip (corrected: well-formed keys) -/

theorem removeGuillGo_id :
    ∀ (fuel : Nat) (l : List Char), (∀ ch ∈ l, ch ≠ '«') →
      removeGuillGo fuel l = l := by
  intro fuel
  induction fuel with
  | zero => intro l _; rfl
  | succ n ih =>
    intro l hl
    cases l with
    | nil => rfl
    | cons c rest =>
      unfold removeGuillGo
      rw [if_neg (hl c (List.mem_cons_self c rest))]
      rw [ih rest (fun ch hch => hl ch (List.mem_cons_of_mem c hch))]

theorem removeGuill_id (l : List Char) (h : ∀ ch ∈ l, ch ≠ '«') :
    removeGuill l = l :=
  removeGuillGo_id _ l h

theorem chain'_of_noWs (l : List Char) (h : ∀ c ∈ l, pyIsSpace c = false) :
    List.Chain' (fun a b => pyIsSpace a = false ∨ pyIsSpace b = false) l := by
  induction l with
  | nil => exact List.chain'_nil
  | cons c rest ih =>
    rw [List.chain'_cons']
    refine ⟨fun y _ => Or.inl (h c (List.mem_cons_self c rest)), ?_⟩
    exact ih fun d hd => h d (List.mem_cons_of_mem c hd)

theorem chain'_of_noWsPair :
    ∀ l : List Char, noWsPair l = true →
      List.Chain' (fun a b => pyIsSpace a = false ∨ pyIsSpace b = false) l := by
  intro l
  induction l with
  | nil => intro _; exact List.chain'_nil
  | cons a rest ih =>
    cases rest with
    | nil => intro _; simp
    | cons b rest2 =>
      intro h
      unfold noWsPair at h
      rw [Bool.and_eq_true] at h
      rw [List.chain'_cons]
      exact ⟨by simpa using h.1, ih h.2⟩

/-- C4 (counterexample to the claim as stated): the claim quantifies over
    arbitrary keys, but for a condition key containing two adjacent spaces
    the whitespace collapse of `_clean_field_code` merges them, so the
    reconstructed full text differs from the claimed
    `{ IF "J" = "{ MERGEFIELD <cond> }" "{ MERGEFIELD <true> }" }` string. -/
theorem claim_C4_counterexample :
    (processRunsForFields (singletonRuns
        (createIfField (("a  b").toList) (("x").toList)))).map
        (fun f => (f.ftype, f.fullText)) ≠
      [(("IF").toList, claimedIfFullText (("a  b").toList) (("x").toList))] := by
  decide

/-- C4 (amended): for keys that are nonempty and contain no whitespace and no
    guillemet characters, `create_if_field` emits exactly the eleven-element
    primitive sequence of the claim (begin, the IF header instruction text,
    the nested MERGEFIELD(condition) triple, the middle quote instruction
    text, the nested MERGEFIELD(true) triple, the closing quote instruction
    text, end), and `_process_runs_for_fields` run over that sequence
    reconstructs exactly one field whose type is `IF` and whose full text is
    the claimed `\x7b IF "J" = "\x7b MERGEFIELD <cond> \x7d" "\x7b MERGEFIELD
    <true> \x7d" \x7d` string.  (For arbitrary keys the round trip fails,
    because `_clean_field_code` collapses whitespace runs inside the keys and
    deletes guillemet-delimited segments; see the counterexample.) -/
theorem claim_C4_if_field_roundtrip (condKey trueKey : List Char)
    (hc1 : condKey ≠ []) (hc2 : ∀ ch ∈ condKey, pyIsSpace ch = false)
    (hc3 : ∀ ch ∈ condKey, ch ≠ '«' ∧ ch ≠ '»')
    (ht1 : trueKey ≠ []) (ht2 : ∀ ch ∈ trueKey, pyIsSpace ch = false)
    (ht3 : ∀ ch ∈ trueKey, ch ≠ '«' ∧ ch ≠ '»') :
    createIfField condKey trueKey =
      [FElem.fchBegin, FElem.instr ((" IF \"J\" = \"").toList),
       FElem.fchBegin,
       FElem.instr ((" MERGEFIELD ").toList ++ condKey ++ [' ']),
       FElem.fchEnd,
       FElem.instr (("\" \"").toList),
       FElem.fchBegin,
       FElem.instr ((" MERGEFIELD ").toList ++ trueKey ++ [' ']),
       FElem.fchEnd,
       FElem.instr ['"'], FElem.fchEnd] ∧
    (processRunsForFields (singletonRuns (createIfField condKey trueKey))).map
        (fun f => (f.ftype, f.fullText)) =
      [(("IF").toList, claimedIfFullText condKey trueKey)] := by
  have hNhead : (ifFieldCode condKey trueKey).head? = some 'I' := rfl
  have hNne : ifFieldCode condKey trueKey ≠ [] := by
    intro he
    have h2 := hNhead
    rw [he] at h2
    simp at h2
  have hNlast : (ifFieldCode condKey trueKey).getLast? = some '"' := by
    show ((((mfLitA ++ condKey) ++ mfLitB) ++ trueKey) ++ mfLitT).getLast? =
      some '"'
    rw [List.getLast?_append_of_ne_nil]
    · rfl
    · decide
  have hmemN : ∀ x ∈ ifFieldCode condKey trueKey,
      x ∈ mfLitA ∨ x ∈ condKey ∨ x ∈ mfLitB ∨ x ∈ trueKey ∨ x ∈ mfLitT := by
    intro x hx
    unfold ifFieldCode at hx
    simp only [List.mem_append] at hx
    tauto
  have hstripN : pyStrip (ifFieldCode condKey trueKey) =
      ifFieldCode condKey trueKey := by
    apply pyStrip_eq_self
    · intro c hc
      rw [hNhead] at hc
      simp only [Option.mem_def, Option.some.injEq] at hc
      subst hc
      decide
    · intro c hc
      rw [hNlast] at hc
      simp only [Option.mem_def, Option.some.injEq] at hc
      subst hc
      decide
  have hguill : removeGuill (ifFieldCode condKey trueKey) =
      ifFieldCode condKey trueKey := by
    apply removeGuill_id
    intro ch hch
    rcases hmemN ch hch with h | h | h | h | h
    · exact (by decide : ∀ y ∈ mfLitA, y ≠ '«') ch h
    · exact (hc3 ch h).1
    · exact (by decide : ∀ y ∈ mfLitB, y ≠ '«') ch h
    · exact (ht3 ch h).1
    · exact (by decide : ∀ y ∈ mfLitT, y ≠ '«') ch h
  have hchain : List.Chain' (fun a b => pyIsSpace a = false ∨ pyIsSpace b = false)
      (ifFieldCode condKey trueKey) := by
    show List.Chain' _ ((((mfLitA ++ condKey) ++ mfLitB) ++ trueKey) ++ mfLitT)
    rw [List.chain'_append]
    refine ⟨?_, chain'_of_noWsPair mfLitT (by decide), ?_⟩
    · rw [List.chain'_append]
      refine ⟨?_, chain'_of_noWs trueKey ht2, ?_⟩
      · rw [List.chain'_append]
        refine ⟨?_, chain'_of_noWsPair mfLitB (by decide), ?_⟩
        · rw [List.chain'_append]
          refine ⟨chain'_of_noWsPair mfLitA (by decide),
            chain'_of_noWs condKey hc2, ?_⟩
          intro x _ y hy
          exact Or.inr (hc2 y (List.mem_of_mem_head? hy))
        · intro x hx y _
          rw [List.getLast?_append_of_ne_nil _ hc1] at hx
          exact Or.inl (hc2 x (getLast?_mem' (Option.mem_def.mp hx)))
      · intro x _ y hy
        exact Or.inr (ht2 y (List.mem_of_mem_head? hy))
    · intro x hx y _
      rw [List.getLast?_append_of_ne_nil _ ht1] at hx
      exact Or.inl (ht2 x (getLast?_mem' (Option.mem_def.mp hx)))
  have hcoll : collapseWs (ifFieldCode condKey trueKey) =
      ifFieldCode condKey trueKey := by
    refine collapseWs_eq_self _ ?_ hchain
    intro c hc hw
    rcases hmemN c hc with h | h | h | h | h
    · exact (by decide : ∀ y ∈ mfLitA, pyIsSpace y = true → y = ' ') c h hw
    · rw [hc2 c h] at hw; simp at hw
    · exact (by decide : ∀ y ∈ mfLitB, pyIsSpace y = true → y = ' ') c h hw
    · rw [ht2 c h] at hw; simp at hw
    · exact (by decide : ∀ y ∈ mfLitT, pyIsSpace y = true → y = ' ') c h hw
  have hclean : cleanFieldCode (ifFieldCode condKey trueKey) =
      ifFieldCode condKey trueKey := by
    unfold cleanFieldCode
    rw [hguill, hcoll, hstripN]
  have hruns : singletonRuns (createIfField condKey trueKey) =
      [[FElem.fchBegin], [FElem.instr ((" IF \"J\" = \"").toList)],
       [FElem.fchBegin], [FElem.instr ((" MERGEFIELD ").toList ++ condKey ++ [' '])],
       [FElem.fchEnd], [FElem.instr (("\" \"").toList)],
       [FElem.fchBegin], [FElem.instr ((" MERGEFIELD ").toList ++ trueKey ++ [' '])],
       [FElem.fchEnd], [FElem.instr ['"']], [FElem.fchEnd]] := rfl
  have t1 : stepRun ({} : RState) [FElem.fchBegin] =
      { level := 1, code := [], resultParts := [], inCode := true, inResult := false, fields := [] } := rfl
  have t2 : stepRun { level := 1, code := [], resultParts := [], inCode := true, inResult := false, fields := [] } [FElem.instr ((" IF \"J\" = \"").toList)] =
      { level := 1, code := [(" IF \"J\" = \"").toList], resultParts := [], inCode := true, inResult := false, fields := [] } := rfl
  have t3 : stepRun { level := 1, code := [(" IF \"J\" = \"").toList], resultParts := [], inCode := true, inResult := false, fields := [] } [FElem.fchBegin] =
      { level := 2, code := [(" IF \"J\" = \"").toList, ['{']], resultParts := [], inCode := true, inResult := false, fields := [] } := rfl
  have t4 : stepRun { level := 2, code := [(" IF \"J\" = \"").toList, ['{']], resultParts := [], inCode := true, inResult := false, fields := [] } [FElem.instr ((" MERGEFIELD ").toList ++ condKey ++ [' '])] =
      { level := 2, code := [(" IF \"J\" = \"").toList, ['{'], (" MERGEFIELD ").toList ++ condKey ++ [' ']], resultParts := [], inCode := true, inResult := false, fields := [] } := rfl
  have t5 : stepRun { level := 2, code := [(" IF \"J\" = \"").toList, ['{'], (" MERGEFIELD ").toList ++ condKey ++ [' ']], resultParts := [], inCode := true, inResult := false, fields := [] } [FElem.fchEnd] =
      { level := 1, code := [(" IF \"J\" = \"").toList, ['{'], (" MERGEFIELD ").toList ++ condKey ++ [' '], ['}']], resultParts := [], inCode := true, inResult := false, fields := [] } := rfl
  have t6 : stepRun { level := 1, code := [(" IF \"J\" = \"").toList, ['{'], (" MERGEFIELD ").toList ++ condKey ++ [' '], ['}']], resultParts := [], inCode := true, inResult := false, fields := [] } [FElem.instr (("\" \"").toList)] =
      { level := 1, code := [(" IF \"J\" = \"").toList, ['{'], (" MERGEFIELD ").toList ++ condKey ++ [' '], ['}'], ("\" \"").toList], resultParts := [], inCode := true, inResult := false, fields := [] } := rfl
  have t7 : stepRun { level := 1, code := [(" IF \"J\" = \"").toList, ['{'], (" MERGEFIELD ").toList ++ condKey ++ [' '], ['}'], ("\" \"").toList], resultParts := [], inCode := true, inResult := false, fields := [] } [FElem.fchBegin] =
      { level := 2, code := [(" IF \"J\" = \"").toList, ['{'], (" MERGEFIELD ").toList ++ condKey ++ [' '], ['}'], ("\" \"").toList, ['{']], resultParts := [], inCode := true, inResult := false, fields := [] } := rfl
  have t8 : stepRun { level := 2, code := [(" IF \"J\" = \"").toList, ['{'], (" MERGEFIELD ").toList ++ condKey ++ [' '], ['}'], ("\" \"").toList, ['{']], resultParts := [], inCode := true, inResult := false, fields := [] } [FElem.instr ((" MERGEFIELD ").toList ++ trueKey ++ [' '])] =
      { level := 2, code := [(" IF \"J\" = \"").toList, ['{'], (" MERGEFIELD ").toList ++ condKey ++ [' '], ['}'], ("\" \"").toList, ['{'], (" MERGEFIELD ").toList ++ trueKey ++ [' ']], resultParts := [], inCode := true, inResult := false, fields := [] } := rfl
  have t9 : stepRun { level := 2, code := [(" IF \"J\" = \"").toList, ['{'], (" MERGEFIELD ").toList ++ condKey ++ [' '], ['}'], ("\" \"").toList, ['{'], (" MERGEFIELD ").toList ++ trueKey ++ [' ']], resultParts := [], inCode := true, inResult := false, fields := [] } [FElem.fchEnd] =
      { level := 1, code := [(" IF \"J\" = \"").toList, ['{'], (" MERGEFIELD ").toList ++ condKey ++ [' '], ['}'], ("\" \"").toList, ['{'], (" MERGEFIELD ").toList ++ trueKey ++ [' '], ['}']], resultParts := [], inCode := true, inResult := false, fields := [] } := rfl
  have t10 : stepRun { level := 1, code := [(" IF \"J\" = \"").toList, ['{'], (" MERGEFIELD ").toList ++ condKey ++ [' '], ['}'], ("\" \"").toList, ['{'], (" MERGEFIELD ").toList ++ trueKey ++ [' '], ['}']], resultParts := [], inCode := true, inResult := false, fields := [] } [FElem.instr ['"']] =
      { level := 1, code := [(" IF \"J\" = \"").toList, ['{'], (" MERGEFIELD ").toList ++ condKey ++ [' '], ['}'], ("\" \"").toList, ['{'], (" MERGEFIELD ").toList ++ trueKey ++ [' '], ['}'], ['"']], resultParts := [], inCode := true, inResult := false, fields := [] } := rfl
  have t11 : stepRun { level := 1, code := [(" IF \"J\" = \"").toList, ['{'], (" MERGEFIELD ").toList ++ condKey ++ [' '], ['}'], ("\" \"").toList, ['{'], (" MERGEFIELD ").toList ++ trueKey ++ [' '], ['}'], ['"']], resultParts := [], inCode := true, inResult := false, fields := [] } [FElem.fchEnd] =
      { level := 0, code := [(" IF \"J\" = \"").toList, ['{'], (" MERGEFIELD ").toList ++ condKey ++ [' '], ['}'], ("\" \"").toList, ['{'], (" MERGEFIELD ").toList ++ trueKey ++ [' '], ['}'], ['"']], resultParts := [], inCode := false, inResult := false,
        fields :=
          if pyStrip ([(" IF \"J\" = \"").toList, ['{'], (" MERGEFIELD ").toList ++ condKey ++ [' '], ['}'], ("\" \"").toList, ['{'], (" MERGEFIELD ").toList ++ trueKey ++ [' '], ['}'], ['"']] : List (List Char)).flatten ≠ [] then
            [mkFieldInfo (pyStrip ([(" IF \"J\" = \"").toList, ['{'], (" MERGEFIELD ").toList ++ condKey ++ [' '], ['}'], ("\" \"").toList, ['{'], (" MERGEFIELD ").toList ++ trueKey ++ [' '], ['}'], ['"']] : List (List Char)).flatten)
              (pyStrip (([] : List (List Char)).flatten))]
          else [] } := rfl
  have hred : processRunsForFields (singletonRuns (createIfField condKey trueKey)) =
      (if pyStrip ([(" IF \"J\" = \"").toList, ['{'], (" MERGEFIELD ").toList ++ condKey ++ [' '], ['}'], ("\" \"").toList, ['{'], (" MERGEFIELD ").toList ++ trueKey ++ [' '], ['}'], ['"']] : List (List Char)).flatten ≠ [] then
            [mkFieldInfo (pyStrip ([(" IF \"J\" = \"").toList, ['{'], (" MERGEFIELD ").toList ++ condKey ++ [' '], ['}'], ("\" \"").toList, ['{'], (" MERGEFIELD ").toList ++ trueKey ++ [' '], ['}'], ['"']] : List (List Char)).flatten)
              (pyStrip (([] : List (List Char)).flatten))]
          else []) := by
    unfold processRunsForFields
    rw [hruns, List.foldl_cons, t1, List.foldl_cons, t2, List.foldl_cons, t3,
      List.foldl_cons, t4, List.foldl_cons, t5, List.foldl_cons, t6,
      List.foldl_cons, t7, List.foldl_cons, t8, List.foldl_cons, t9,
      List.foldl_cons, t10, List.foldl_cons, t11, List.foldl_nil]
  have hJ : ([(" IF \"J\" = \"").toList, ['{'], (" MERGEFIELD ").toList ++ condKey ++ [' '], ['}'], ("\" \"").toList, ['{'], (" MERGEFIELD ").toList ++ trueKey ++ [' '], ['}'], ['"']] : List (List Char)).flatten =
      ' ' :: ifFieldCode condKey trueKey := by
    simp only [List.flatten_cons, List.flatten_nil,
      show (" IF \"J\" = \"").toList =
        [' ', 'I', 'F', ' ', '"', 'J', '"', ' ', '=', ' ', '"'] from rfl,
      show (" MERGEFIELD ").toList =
        [' ', 'M', 'E', 'R', 'G', 'E', 'F', 'I', 'E', 'L', 'D', ' '] from rfl,
      show ("\" \"").toList = ['"', ' ', '"'] from rfl]
    unfold ifFieldCode mfLitA mfLitB mfLitT
    simp [List.append_assoc]
  have hstrip : pyStrip ([(" IF \"J\" = \"").toList, ['{'], (" MERGEFIELD ").toList ++ condKey ++ [' '], ['}'], ("\" \"").toList, ['{'], (" MERGEFIELD ").toList ++ trueKey ++ [' '], ['}'], ['"']] : List (List Char)).flatten =
      ifFieldCode condKey trueKey := by
    rw [hJ]
    unfold pyStrip
    rw [List.dropWhile_cons]
    rw [if_pos (show pyIsSpace ' ' = true by decide)]
    exact hstripN
  refine ⟨rfl, ?_⟩
  rw [hred, hstrip]
  rw [if_pos hNne]
  simp only [List.map_cons, List.map_nil, mkFieldInfo]
  rw [hclean]
  rw [if_neg hNne]
  rw [show upperL (((ifFieldCode condKey trueKey).dropWhile pyIsSpace).takeWhile
      (fun d => !pyIsSpace d)) = ("IF").toList from rfl]
  rw [show claimedIfFullText condKey trueKey =
      ((((['{', ' ', 'I', 'F', ' ', '"', 'J', '"', ' ', '=', ' ', '"', '{', ' ',
          'M', 'E', 'R', 'G', 'E', 'F', 'I', 'E', 'L', 'D', ' '] ++ condKey) ++
        [' ', '}', '"', ' ', '"', '{', ' ',
          'M', 'E', 'R', 'G', 'E', 'F', 'I', 'E', 'L', 'D', ' ']) ++ trueKey) ++
        [' ', '}', '"', ' ', '}']) from rfl]
  unfold ifFieldCode mfLitA mfLitB mfLitT
  simp [List.append_assoc]

/-- Witness for C4: the amended round trip instantiated at the concrete keys
    `Kundetype` and `Html:kt`. -/
theorem claim_C4_witness :
    (processRunsForFields (singletonRuns
        (createIfField (("Kundetype").toList) (("Html:kt").toList)))).map
        (fun f => (f.ftype, f.fullText)) =
      [(("IF").toList,
        claimedIfFullText (("Kundetype").toList) (("Html:kt").toList))] :=
  (claim_C4_if_field_roundtrip (("Kundetype").toList) (("Html:kt").toList)
    (by decide) (by decide) (by decide) (by decide) (by decide) (by decide)).2

end Brev
